import Mathlib

/-!
Verification of the shared union-find / clustering / polygon-rasterization
core of the repository, as a shallow embedding in Lean.

The Rust `Vec<UFNode>` backing store of `UnionFind` is modelled as a pair of
total functions `parent, size : Nat → Nat` together with the explicit length
`len`; Rust indexing panics out of range, and every theorem below only ever
touches indices below `len`, so the values of the functions beyond `len` are
irrelevant. The `while` loop of `find` is modelled by fuel recursion with
fuel `len`; under the well-formedness invariant `WF` (which holds for every
structure reachable from `UnionFind.new`) chains strictly increase in stored
size, hence have length below `len`, so the fuel never runs out and the model
agrees with the Rust loop.
-/

/-- Pointwise update of a function `Nat → Nat`, modelling `vec[i] = v`. -/
def upd (f : Nat → Nat) (a v : Nat) : Nat → Nat :=
  fun x => if x = a then v else f x

theorem upd_self (f : Nat → Nat) (a v : Nat) : upd f a v a = v := by
  simp [upd]

theorem upd_ne (f : Nat → Nat) {a v x : Nat} (h : x ≠ a) : upd f a v x = f x := by
  simp [upd, h]

/-- Model of `struct UnionFind { nodes: Vec<UFNode>, num_roots: usize }` from
`src/shared.rs` (the identical private copy in `src/day_08.rs` is the same
code). `parent i` and `size i` model `nodes[i].parent` and `nodes[i].size`. -/
structure UnionFind where
  len : Nat
  parent : Nat → Nat
  size : Nat → Nat
  num_roots : Nat

/-- `UnionFind::new(size)`: every element its own parent, size 1. -/
def UnionFind.new (n : Nat) : UnionFind :=
  { len := n, parent := fun i => i, size := fun _ => 1, num_roots := n }

/-- The body of the `while` loop of `UnionFind::find`, with fuel. One
iteration reads `parent = nodes[index].parent`; if `index == parent` it
stops, otherwise it sets `nodes[index].parent` to the grandparent and jumps
to the grandparent (path halving), exactly as in the source. -/
def findAux (p : Nat → Nat) : Nat → Nat → (Nat → Nat) × Nat
  | 0, index => (p, index)
  | fuel + 1, index =>
    let par := p index
    if index = par then (p, index)
    else
      let grand := p par
      findAux (upd p index grand) fuel grand

/-- `UnionFind::find(index)`: returns the updated structure and the root. -/
def UnionFind.find (u : UnionFind) (index : Nat) : UnionFind × Nat :=
  let r := findAux u.parent u.len index
  ({ u with parent := r.1 }, r.2)

/-- The linking tail of `UnionFind::union`: after the swap that makes the
first root the larger one, the source runs `nodes[index2].parent = index1;
nodes[index1].size += nodes[index2].size; num_roots -= 1`. Here `l` is the
root that loses (gets attached) and `w` the root that wins. -/
def linkState (u : UnionFind) (l w : Nat) : UnionFind :=
  { u with
      parent := upd u.parent l w
      size := upd u.size w (u.size w + u.size l)
      num_roots := u.num_roots - 1 }

/-- `UnionFind::union(index1, index2)` from the source: find both roots,
return `false` if they agree, otherwise attach the smaller-size root under
the larger-size root (`if self.nodes[index1].size < self.nodes[index2].size`
swaps the pair first), add the sizes, decrement `num_roots`, return
`true`. -/
def UnionFind.union (u : UnionFind) (index1 index2 : Nat) : UnionFind × Bool :=
  let f1 := u.find index1
  let f2 := f1.1.find index2
  let u2 := f2.1
  let r1 := f1.2
  let r2 := f2.2
  if r1 = r2 then (u2, false)
  else if u2.size r1 < u2.size r2 then (linkState u2 r1 r2, true)
  else (linkState u2 r2 r1, true)

/-- `UnionFind::roots()`: the `(root_index, size)` pairs, in index order,
as produced by `enumerate().filter_map(..)` over the node vector. -/
def UnionFind.rootsList (u : UnionFind) : List (Nat × Nat) :=
  (List.range u.len).filterMap
    (fun i => if u.parent i = i then some (i, u.size i) else none)

/-- Pure chase of parent pointers with fuel (no mutation); used to state
invariants about the partition represented by a `UnionFind`. -/
def rootAux (p : Nat → Nat) : Nat → Nat → Nat
  | 0, i => i
  | fuel + 1, i => if p i = i then i else rootAux p fuel (p i)

/-- The root currently representing `i` (fuel `len` always suffices under
the `WF` invariant). -/
def UnionFind.rootOf (u : UnionFind) (i : Nat) : Nat :=
  rootAux u.parent u.len i

/-- Number of elements of `0..len` whose current root is `r`. -/
def UnionFind.classCard (u : UnionFind) (r : Nat) : Nat :=
  ((Finset.range u.len).filter (fun j => u.rootOf j = r)).card

/-- Well-formedness invariant tying the raw fields together: parents stay in
range, stored sizes are positive, bounded by `len`, and strictly increase
along non-trivial parent edges (which makes all parent chains terminate),
the stored size of every root is the cardinality of its class, and
`num_roots` counts the roots. Every structure reachable from
`UnionFind.new` by `find`/`union` calls on in-range indices satisfies it. -/
def UnionFind.WF (u : UnionFind) : Prop :=
  (∀ i < u.len, u.parent i < u.len) ∧
  (∀ i < u.len, 1 ≤ u.size i) ∧
  (∀ i < u.len, u.size i ≤ u.len) ∧
  (∀ i < u.len, u.parent i ≠ i → u.size i < u.size (u.parent i)) ∧
  (∀ r < u.len, u.parent r = r → u.size r = u.classCard r) ∧
  u.num_roots = ((Finset.range u.len).filter (fun i => u.parent i = i)).card

instance (u : UnionFind) : Decidable u.WF := by
  unfold UnionFind.WF
  infer_instance

/-- `RootedAt p i r`: following parent pointers from `i` reaches the root
`r` (a fixpoint of `p`). -/
inductive RootedAt (p : Nat → Nat) : Nat → Nat → Prop
  | self (i : Nat) : p i = i → RootedAt p i i
  | step (i r : Nat) : p i ≠ i → RootedAt p (p i) r → RootedAt p i r

theorem RootedAt.root_fix {p : Nat → Nat} {i r : Nat}
    (h : RootedAt p i r) : p r = r := by
  induction h with
  | self _ h => exact h
  | step _ _ _ _ ih => exact ih

theorem RootedAt.unique {p : Nat → Nat} {i r s : Nat}
    (h : RootedAt p i r) (h' : RootedAt p i s) : r = s := by
  induction h with
  | self i hfix =>
    cases h' with
    | self _ _ => rfl
    | step _ _ hne _ => exact absurd hfix hne
  | step i r hne _ ih =>
    cases h' with
    | self _ hfix => exact absurd hfix hne
    | step _ _ _ htail => exact ih htail

theorem RootedAt.of_parent {p : Nat → Nat} {i r : Nat}
    (hne : p i ≠ i) (h : RootedAt p i r) : RootedAt p (p i) r := by
  cases h with
  | self _ hfix => exact absurd hfix hne
  | step _ _ _ htail => exact htail

/-- Restricted well-formedness of a parent map relative to a size map:
parents in range and stored size strictly increasing along edges. -/
def PGood (n : Nat) (sz p : Nat → Nat) : Prop :=
  (∀ i < n, p i < n) ∧ (∀ i < n, p i ≠ i → sz i < sz (p i))

theorem rootAux_spec {n : Nat} {sz p : Nat → Nat}
    (hg : PGood n sz p) (hle : ∀ i < n, sz i ≤ n) :
    ∀ fuel i, i < n → n - sz i ≤ fuel →
      RootedAt p i (rootAux p fuel i) ∧ rootAux p fuel i < n := by
  obtain ⟨hlt, hmono⟩ := hg
  intro fuel
  induction fuel with
  | zero =>
    intro i hi hfuel
    have hszn : sz i = n := le_antisymm (hle i hi) (by omega)
    have hroot : p i = i := by
      by_contra hne
      have h1 := hmono i hi hne
      have h2 := hle (p i) (hlt i hi)
      omega
    exact ⟨RootedAt.self i hroot, by simpa [rootAux]⟩
  | succ fuel ih =>
    intro i hi hfuel
    by_cases hroot : p i = i
    · refine ⟨?_, ?_⟩
      · simpa [rootAux, hroot] using RootedAt.self i hroot
      · simpa [rootAux, hroot] using hi
    · have hpi : p i < n := hlt i hi
      have hsz : sz i < sz (p i) := hmono i hi hroot
      have hrec := ih (p i) hpi (by omega)
      refine ⟨?_, ?_⟩
      · exact RootedAt.step i _ hroot (by simpa [rootAux, hroot] using hrec.1)
      · simpa [rootAux, hroot] using hrec.2

theorem rootAux_eq_of_rootedAt {p : Nat → Nat} :
    ∀ {fuel i r}, RootedAt p i r → RootedAt p i (rootAux p fuel i) →
      rootAux p fuel i = r := by
  intro fuel i r h h'
  exact (h'.unique h)

theorem rootedAt_rootOf {u : UnionFind} (h : u.WF) {i : Nat} (hi : i < u.len) :
    RootedAt u.parent i (u.rootOf i) ∧ u.rootOf i < u.len := by
  obtain ⟨h1, h2, h3, h4, h5, h6⟩ := h
  exact rootAux_spec ⟨h1, h4⟩ h3 u.len i hi (by omega)

theorem rootOf_eq_of_rootedAt {u : UnionFind} (h : u.WF) {i r : Nat}
    (hi : i < u.len) (hr : RootedAt u.parent i r) : u.rootOf i = r :=
  (rootedAt_rootOf h hi).1.unique hr

theorem rootOf_root {u : UnionFind} (h : u.WF) {r : Nat}
    (hr : r < u.len) (hfix : u.parent r = r) : u.rootOf r = r :=
  rootOf_eq_of_rootedAt h hr (RootedAt.self r hfix)

theorem rootOf_is_root {u : UnionFind} (h : u.WF) {i : Nat} (hi : i < u.len) :
    u.parent (u.rootOf i) = u.rootOf i :=
  (rootedAt_rootOf h hi).1.root_fix

theorem rootOf_parent {u : UnionFind} (h : u.WF) {i : Nat} (hi : i < u.len)
    (hne : u.parent i ≠ i) : u.rootOf (u.parent i) = u.rootOf i := by
  have h1 := (rootedAt_rootOf h hi).1
  have h2 := h1.of_parent hne
  have hlt := h.1
  exact rootOf_eq_of_rootedAt h (hlt i hi) h2

theorem rootedAt_upd_of_size_gt {n : Nat} {sz p : Nat → Nat} {x g : Nat}
    (hg : PGood n sz p) (hxg : sz x < sz g) :
    ∀ {j r}, RootedAt p j r → j < n → sz x < sz j → RootedAt (upd p x g) j r := by
  intro j r h
  induction h with
  | self j hfix =>
    intro hj hsz
    have hne : j ≠ x := by intro he; subst he; omega
    exact RootedAt.self j (by rw [upd_ne _ hne]; exact hfix)
  | step j r hne htail ih =>
    intro hj hsz
    have hjx : j ≠ x := by intro he; subst he; omega
    have hpj : p j < n := hg.1 j hj
    have hszp : sz j < sz (p j) := hg.2 j hj hne
    have h1 : upd p x g j = p j := upd_ne _ hjx
    refine RootedAt.step j r ?_ ?_
    · rw [h1]; exact hne
    · rw [h1]; exact ih hpj (by omega)

theorem rootedAt_upd {n : Nat} {sz p : Nat → Nat} {x : Nat}
    (hg : PGood n sz p) (hx : x < n) (hxr : p x ≠ x) :
    ∀ {j r}, RootedAt p j r → j < n →
      RootedAt (upd p x (p (p x))) j r := by
  have hpx : p x < n := hg.1 x hx
  have hszx : sz x < sz (p x) := hg.2 x hx hxr
  have hszg : sz x < sz (p (p x)) := by
    by_cases hroot : p (p x) = p x
    · rw [hroot]; exact hszx
    · have h2 := hg.2 (p x) hpx hroot
      omega
  intro j r h
  induction h with
  | self j hfix =>
    intro hj
    have hne : j ≠ x := fun he => by subst he; exact hxr hfix
    exact RootedAt.self j (by rw [upd_ne _ hne]; exact hfix)
  | step j r hne htail ih =>
    intro hj
    by_cases hjx : j = x
    · subst hjx
      have hgr : RootedAt p (p (p j)) r := by
        by_cases hroot : p (p j) = p j
        · rw [hroot]; exact htail
        · exact htail.of_parent hroot
      have hgood : RootedAt (upd p j (p (p j))) (p (p j)) r :=
        rootedAt_upd_of_size_gt hg hszg hgr (hg.1 (p j) (hg.1 j hj)) hszg
      have hne2 : upd p j (p (p j)) j ≠ j := by
        rw [upd_self]
        intro he
        rw [he] at hszg
        omega
      refine RootedAt.step j r hne2 ?_
      rw [upd_self]
      exact hgood
    · have h1 : upd p x (p (p x)) j = p j := upd_ne _ hjx
      refine RootedAt.step j r ?_ ?_
      · rw [h1]; exact hne
      · rw [h1]; exact ih (hg.1 j hj)

theorem upd_halve_pgood {n : Nat} {sz p : Nat → Nat} {x : Nat}
    (hg : PGood n sz p) (hx : x < n) (hxr : p x ≠ x) :
    PGood n sz (upd p x (p (p x))) := by
  have hpx : p x < n := hg.1 x hx
  have hszx : sz x < sz (p x) := hg.2 x hx hxr
  have hszg : sz x < sz (p (p x)) := by
    by_cases hroot : p (p x) = p x
    · rw [hroot]; exact hszx
    · have h2 := hg.2 (p x) hpx hroot
      omega
  constructor
  · intro i hi
    by_cases hix : i = x
    · subst hix; rw [upd_self]; exact hg.1 (p i) hpx
    · rw [upd_ne _ hix]; exact hg.1 i hi
  · intro i hi hne
    by_cases hix : i = x
    · subst hix; rw [upd_self]; exact hszg
    · rw [upd_ne _ hix]; exact hg.2 i hi (by rwa [upd_ne _ hix] at hne)

theorem upd_halve_roots {n : Nat} {sz p : Nat → Nat} {x : Nat}
    (hg : PGood n sz p) (hx : x < n) (hxr : p x ≠ x) :
    ∀ j, upd p x (p (p x)) j = j ↔ p j = j := by
  have hpx : p x < n := hg.1 x hx
  have hszx : sz x < sz (p x) := hg.2 x hx hxr
  have hszg : sz x < sz (p (p x)) := by
    by_cases hroot : p (p x) = p x
    · rw [hroot]; exact hszx
    · have h2 := hg.2 (p x) hpx hroot
      omega
  intro j
  by_cases hjx : j = x
  · subst hjx
    rw [upd_self]
    constructor
    · intro he; rw [he] at hszg; omega
    · intro he; exact absurd he hxr
  · rw [upd_ne _ hjx]

theorem findAux_spec {n : Nat} {sz : Nat → Nat}
    (hsl : ∀ i < n, sz i ≤ n) :
    ∀ fuel (p : Nat → Nat), PGood n sz p → ∀ i, i < n → n - sz i ≤ fuel →
      PGood n sz (findAux p fuel i).1 ∧
      (∀ j, (findAux p fuel i).1 j = j ↔ p j = j) ∧
      (∀ j r, j < n → RootedAt p j r → RootedAt (findAux p fuel i).1 j r) ∧
      RootedAt p i (findAux p fuel i).2 ∧
      (findAux p fuel i).2 < n := by
  intro fuel
  induction fuel with
  | zero =>
    intro p hg i hi hfuel
    have hszn : sz i = n := le_antisymm (hsl i hi) (by omega)
    have hroot : p i = i := by
      by_contra hne
      have h1 := hg.2 i hi hne
      have h2 := hsl (p i) (hg.1 i hi)
      omega
    exact ⟨hg, fun j => Iff.rfl, fun j r _ h => h, RootedAt.self i hroot, by
      simpa [findAux] using hi⟩
  | succ fuel ih =>
    intro p hg i hi hfuel
    by_cases hroot : p i = i
    · have hred : findAux p (fuel + 1) i = (p, i) := by
        simp only [findAux, if_pos hroot.symm]
      rw [hred]
      exact ⟨hg, fun j => Iff.rfl, fun j r _ h => h, RootedAt.self i hroot, hi⟩
    · have hilt : i ≠ p i := fun he => hroot he.symm
      have hpi : p i < n := hg.1 i hi
      have hszx : sz i < sz (p i) := hg.2 i hi hroot
      have hszg : sz i < sz (p (p i)) := by
        by_cases hr2 : p (p i) = p i
        · rw [hr2]; exact hszx
        · have := hg.2 (p i) hpi hr2
          omega
      have hgi : p (p i) < n := hg.1 (p i) hpi
      have hg' : PGood n sz (upd p i (p (p i))) := upd_halve_pgood hg hi hroot
      have hrec := ih (upd p i (p (p i))) hg' (p (p i)) hgi (by omega)
      have hred : findAux p (fuel + 1) i = findAux (upd p i (p (p i))) fuel (p (p i)) := by
        simp only [findAux, if_neg hilt]
      rw [hred]
      obtain ⟨hg2, hfix2, htrans2, hrooted2, hlt2⟩ := hrec
      have hstepFix : ∀ j, upd p i (p (p i)) j = j ↔ p j = j :=
        upd_halve_roots hg hi hroot
      have hstepTrans : ∀ j r, j < n → RootedAt p j r →
          RootedAt (upd p i (p (p i))) j r :=
        fun j r hj h => rootedAt_upd hg hi hroot h hj
      refine ⟨hg2, ?_, ?_, ?_, hlt2⟩
      · intro j
        exact (hfix2 j).trans (hstepFix j)
      · intro j r hj h
        exact htrans2 j r hj (hstepTrans j r hj h)
      · -- the final index is the root of `i` already in `p`
        have hP : RootedAt p i (rootAux p n i) :=
          (rootAux_spec hg hsl n i hi (by omega)).1
        have hP' : RootedAt (upd p i (p (p i))) i (rootAux p n i) :=
          hstepTrans i _ hi hP
        have hPstep : RootedAt (upd p i (p (p i))) (p (p i)) (rootAux p n i) := by
          have hne : upd p i (p (p i)) i ≠ i := by
            rw [upd_self]
            intro he
            rw [he] at hszg
            omega
          have := hP'.of_parent hne
          rwa [upd_self] at this
        have hfinal : RootedAt (upd p i (p (p i))) (p (p i))
            (findAux (upd p i (p (p i))) fuel (p (p i))).2 := hrooted2
        have : (findAux (upd p i (p (p i))) fuel (p (p i))).2 = rootAux p n i :=
          hfinal.unique hPstep
        rw [this]
        exact hP

theorem find_preserve (u : UnionFind) (h : u.WF) (i : Nat) (hi : i < u.len) :
    (u.find i).1.len = u.len ∧
    (u.find i).1.size = u.size ∧
    (u.find i).1.num_roots = u.num_roots ∧
    (u.find i).1.WF ∧
    (u.find i).2 = u.rootOf i ∧
    (∀ j, j < u.len → (u.find i).1.rootOf j = u.rootOf j) ∧
    (∀ j, (u.find i).1.parent j = j ↔ u.parent j = j) ∧
    (u.find i).1.rootsList = u.rootsList := by
  obtain ⟨h1, h2, h3, h4, h5, h6⟩ := h
  have hwf : u.WF := ⟨h1, h2, h3, h4, h5, h6⟩
  have spec := findAux_spec h3 u.len u.parent ⟨h1, h4⟩ i hi (by omega)
  obtain ⟨sg, sfix, strans, srooted, slt⟩ := spec
  have hlen : (u.find i).1.len = u.len := rfl
  have hsize : (u.find i).1.size = u.size := rfl
  have hnum : (u.find i).1.num_roots = u.num_roots := rfl
  have hpar : (u.find i).1.parent = (findAux u.parent u.len i).1 := rfl
  have hres : (u.find i).2 = (findAux u.parent u.len i).2 := rfl
  have hroot2 : ∀ j, j < u.len → (u.find i).1.rootOf j = u.rootOf j := by
    intro j hj
    have hold : RootedAt u.parent j (u.rootOf j) := (rootedAt_rootOf hwf hj).1
    have hnew : RootedAt (findAux u.parent u.len i).1 j (u.rootOf j) :=
      strans j _ hj hold
    have hself : RootedAt (findAux u.parent u.len i).1 j ((u.find i).1.rootOf j) := by
      have := (rootAux_spec sg h3 u.len j hj (by omega)).1
      simpa [UnionFind.rootOf, hlen, hpar] using this
    have := hself.unique hnew
    simpa [UnionFind.rootOf, hlen, hpar] using this
  have hfix : ∀ j, (u.find i).1.parent j = j ↔ u.parent j = j := by
    intro j
    rw [hpar]
    exact sfix j
  have hcc : ∀ r, (u.find i).1.classCard r = u.classCard r := by
    intro r
    unfold UnionFind.classCard
    rw [hlen]
    apply congrArg
    apply Finset.filter_congr
    intro j hj
    rw [Finset.mem_range] at hj
    simp [hroot2 j hj]
  refine ⟨hlen, hsize, hnum, ?_, ?_, hroot2, hfix, ?_⟩
  · refine ⟨?_, ?_, ?_, ?_, ?_, ?_⟩
    · intro j hj
      rw [hlen] at hj
      rw [hlen, hpar]
      exact sg.1 j hj
    · intro j hj
      rw [hlen] at hj
      rw [hsize]
      exact h2 j hj
    · intro j hj
      rw [hlen] at hj
      rw [hsize]
      exact h3 j hj
    · intro j hj hne
      rw [hlen] at hj
      rw [hsize]
      rw [hpar] at hne ⊢
      exact sg.2 j hj hne
    · intro r hr hfixr
      rw [hlen] at hr
      rw [hsize, hcc r]
      exact h5 r hr ((hfix r).1 hfixr)
    · rw [hnum, hlen, h6]
      apply congrArg
      apply Finset.filter_congr
      intro j _
      simp [hfix j]
  · rw [hres]
    exact (rootOf_eq_of_rootedAt hwf hi srooted).symm
  · unfold UnionFind.rootsList
    simp only [hlen, hsize]
    have hff : (fun j => if (u.find i).1.parent j = j then some (j, u.size j) else none)
        = (fun j : Nat => if u.parent j = j then some (j, u.size j) else none) := by
      funext j
      by_cases hj : u.parent j = j
      · rw [if_pos hj, if_pos ((hfix j).2 hj)]
      · rw [if_neg hj, if_neg (fun hc => hj ((hfix j).1 hc))]
    rw [hff]

theorem link_rootedAt_keep {p : Nat → Nat} {l w : Nat} (hl : p l = l) :
    ∀ {j r}, RootedAt p j r → r ≠ l → RootedAt (upd p l w) j r := by
  intro j r h
  induction h with
  | self j hfix =>
    intro hne
    exact RootedAt.self j (by rw [upd_ne _ hne]; exact hfix)
  | step j r hne2 htail ih =>
    intro hne
    have hjl : j ≠ l := by
      intro he
      subst he
      exact hne2 hl
    have h1 : upd p l w j = p j := upd_ne _ hjl
    exact RootedAt.step j r (by rw [h1]; exact hne2) (by rw [h1]; exact ih hne)

theorem link_rootedAt_move {p : Nat → Nat} {l w : Nat} (hl : p l = l)
    (hw : p w = w) (hlw : l ≠ w) :
    ∀ {j r}, RootedAt p j r → r = l → RootedAt (upd p l w) j w := by
  intro j r h
  induction h with
  | self j hfix =>
    intro he
    subst he
    refine RootedAt.step j w ?_ ?_
    · rw [upd_self]; exact fun hc => hlw hc.symm
    · rw [upd_self]
      exact RootedAt.self w (by rw [upd_ne _ (fun hc => hlw hc.symm)]; exact hw)
  | step j r hne htail ih =>
    intro he
    have hjl : j ≠ l := by
      intro hc
      subst hc
      exact hne hl
    have h1 : upd p l w j = p j := upd_ne _ hjl
    exact RootedAt.step j w (by rw [h1]; exact hne) (by rw [h1]; exact ih he)

theorem link_roots {p : Nat → Nat} {l w : Nat} (hl : p l = l) (hlw : l ≠ w) :
    ∀ j, upd p l w j = j ↔ (p j = j ∧ j ≠ l) := by
  intro j
  by_cases hjl : j = l
  · subst hjl
    rw [upd_self]
    constructor
    · intro he; exact absurd he.symm hlw
    · intro he; exact absurd rfl he.2
  · rw [upd_ne _ hjl]
    exact ⟨fun he => ⟨he, hjl⟩, fun he => he.1⟩

theorem linked_spec (u2 : UnionFind) (h : u2.WF) (l w : Nat)
    (hl : l < u2.len) (hw : w < u2.len)
    (hlr : u2.parent l = l) (hwr : u2.parent w = w) (hlw : l ≠ w) :
    (linkState u2 l w).WF ∧
    (∀ j, j < u2.len →
      (linkState u2 l w).rootOf j = if u2.rootOf j = l then w else u2.rootOf j) ∧
    (∀ j, (linkState u2 l w).parent j = j ↔ (u2.parent j = j ∧ j ≠ l)) ∧
    (linkState u2 l w).size w = u2.size w + u2.size l ∧
    (∀ j, j ≠ w → (linkState u2 l w).size j = u2.size j) ∧
    (linkState u2 l w).num_roots = u2.num_roots - 1 ∧
    (linkState u2 l w).len = u2.len := by
  obtain ⟨h1, h2, h3, h4, h5, h6⟩ := h
  have hwf : u2.WF := ⟨h1, h2, h3, h4, h5, h6⟩
  have hwl : w ≠ l := fun he => hlw he.symm
  have hdisj : Disjoint
      ((Finset.range u2.len).filter (fun j => u2.rootOf j = w))
      ((Finset.range u2.len).filter (fun j => u2.rootOf j = l)) := by
    rw [Finset.disjoint_left]
    intro a ha hb
    rw [Finset.mem_filter] at ha hb
    exact hwl (ha.2 ▸ hb.2 ▸ rfl)
  have hsum : u2.size w + u2.size l = u2.classCard w + u2.classCard l := by
    rw [h5 w hw hwr, h5 l hl hlr]
  have hsum_le : u2.size w + u2.size l ≤ u2.len := by
    rw [hsum]
    unfold UnionFind.classCard
    rw [← Finset.card_union_of_disjoint hdisj]
    calc _ ≤ (Finset.range u2.len).card := Finset.card_le_card (by
              intro a ha
              simp only [Finset.mem_union, Finset.mem_filter] at ha
              rcases ha with ha | ha <;> exact ha.1)
    _ = u2.len := Finset.card_range u2.len
  have hfix : ∀ j, (linkState u2 l w).parent j = j ↔ (u2.parent j = j ∧ j ≠ l) :=
    link_roots hlr hlw
  have hg' : PGood u2.len (linkState u2 l w).size (linkState u2 l w).parent := by
    constructor
    · intro j hj
      by_cases hjl : j = l
      · subst hjl
        show upd u2.parent j w j < u2.len
        rw [upd_self]
        exact hw
      · show upd u2.parent l w j < u2.len
        rw [upd_ne _ hjl]
        exact h1 j hj
    · intro j hj hne
      by_cases hjl : j = l
      · subst hjl
        show (linkState u2 j w).size j < (linkState u2 j w).size (upd u2.parent j w j)
        rw [upd_self]
        show upd u2.size w (u2.size w + u2.size j) j < upd u2.size w (u2.size w + u2.size j) w
        rw [upd_self, upd_ne _ (fun he => hlw he)]
        have := h2 w hw
        omega
      · have hjw : j ≠ w := by
          intro he
          subst he
          rw [(hfix j).2 ⟨hwr, hjl⟩] at hne
          exact hne rfl
        have hpj : (linkState u2 l w).parent j = u2.parent j := upd_ne _ hjl
        have hpne : u2.parent j ≠ j := by
          rw [hpj] at hne
          exact hne
        have hjs : (linkState u2 l w).size j = u2.size j := upd_ne _ hjw
        rw [hpj, hjs]
        by_cases hpw : u2.parent j = w
        · rw [hpw]
          show u2.size j < upd u2.size w (u2.size w + u2.size l) w
          rw [upd_self]
          have := h4 j hj hpne
          rw [hpw] at this
          omega
        · show u2.size j < upd u2.size w (u2.size w + u2.size l) (u2.parent j)
          rw [upd_ne _ hpw]
          exact h4 j hj hpne
  have hsz_le : ∀ i < u2.len, (linkState u2 l w).size i ≤ u2.len := by
    intro i hi
    by_cases hiw : i = w
    · subst hiw
      show upd u2.size i (u2.size i + u2.size l) i ≤ u2.len
      rw [upd_self]
      exact hsum_le
    · show upd u2.size w (u2.size w + u2.size l) i ≤ u2.len
      rw [upd_ne _ hiw]
      exact h3 i hi
  have hchar : ∀ j, j < u2.len →
      (linkState u2 l w).rootOf j = if u2.rootOf j = l then w else u2.rootOf j := by
    intro j hj
    have htarget : RootedAt (linkState u2 l w).parent j
        (if u2.rootOf j = l then w else u2.rootOf j) := by
      by_cases hc : u2.rootOf j = l
      · rw [if_pos hc]
        exact link_rootedAt_move hlr hwr hlw ((rootedAt_rootOf hwf hj).1) hc
      · rw [if_neg hc]
        exact link_rootedAt_keep hlr ((rootedAt_rootOf hwf hj).1) hc
    have hself : RootedAt (linkState u2 l w).parent j ((linkState u2 l w).rootOf j) := by
      have := (rootAux_spec hg' hsz_le u2.len j hj (by omega)).1
      simpa [UnionFind.rootOf, linkState] using this
    exact hself.unique htarget
  refine ⟨⟨hg'.1, ?_, hsz_le, hg'.2, ?_, ?_⟩, hchar, hfix, ?_, ?_, rfl, rfl⟩
  · intro i hi
    by_cases hiw : i = w
    · subst hiw
      show 1 ≤ upd u2.size i (u2.size i + u2.size l) i
      rw [upd_self]
      have := h2 i hw
      omega
    · show 1 ≤ upd u2.size w (u2.size w + u2.size l) i
      rw [upd_ne _ hiw]
      exact h2 i hi
  · -- size of every root equals its class cardinality in the linked state
    intro r hr hrfix
    have hrfix2 := (hfix r).1 hrfix
    by_cases hrw : r = w
    · subst hrw
      have hsw : (linkState u2 l r).size r = u2.size r + u2.size l := by
        show upd u2.size r (u2.size r + u2.size l) r = _
        rw [upd_self]
      rw [hsw]
      unfold UnionFind.classCard
      have hset : (Finset.range (linkState u2 l r).len).filter
            (fun j => (linkState u2 l r).rootOf j = r)
          = ((Finset.range u2.len).filter (fun j => u2.rootOf j = r)) ∪
            ((Finset.range u2.len).filter (fun j => u2.rootOf j = l)) := by
        rw [← Finset.filter_or]
        apply Finset.filter_congr
        intro j hj
        rw [Finset.mem_range] at hj
        rw [hchar j hj]
        by_cases hc : u2.rootOf j = l
        · simp [hc]
        · simp [hc]
      rw [hset, Finset.card_union_of_disjoint hdisj]
      rw [hsum]
      rfl
    · have hrl : r ≠ l := hrfix2.2
      have hsr : (linkState u2 l w).size r = u2.size r := upd_ne _ hrw
      rw [hsr]
      unfold UnionFind.classCard
      have hset : (Finset.range (linkState u2 l w).len).filter
            (fun j => (linkState u2 l w).rootOf j = r)
          = (Finset.range u2.len).filter (fun j => u2.rootOf j = r) := by
        apply Finset.filter_congr
        intro j hj
        rw [Finset.mem_range] at hj
        rw [hchar j hj]
        by_cases hc : u2.rootOf j = l
        · rw [if_pos hc, hc]
          constructor
          · intro he
            exact absurd he.symm hrw
          · intro he
            exact absurd he.symm hrl
        · simp [hc]
      rw [hset]
      exact h5 r hr hrfix2.1
  · -- num_roots counts roots in the linked state
    have hmem : l ∈ (Finset.range u2.len).filter (fun i => u2.parent i = i) := by
      rw [Finset.mem_filter, Finset.mem_range]
      exact ⟨hl, hlr⟩
    have hset : (Finset.range (linkState u2 l w).len).filter
          (fun i => (linkState u2 l w).parent i = i)
        = ((Finset.range u2.len).filter (fun i => u2.parent i = i)).erase l := by
      ext j
      rw [Finset.mem_erase, Finset.mem_filter, Finset.mem_filter, Finset.mem_range,
        Finset.mem_range]
      constructor
      · intro ⟨hj, hfixj⟩
        have := (hfix j).1 hfixj
        exact ⟨this.2, hj, this.1⟩
      · intro ⟨hjl, hj, hfixj⟩
        exact ⟨hj, (hfix j).2 ⟨hfixj, hjl⟩⟩
    show u2.num_roots - 1 = _
    rw [hset, Finset.card_erase_of_mem hmem, h6]
  · show upd u2.size w (u2.size w + u2.size l) w = _
    rw [upd_self]
  · intro j hj
    show upd u2.size w (u2.size w + u2.size l) j = u2.size j
    rw [upd_ne _ hj]

theorem linked_transported (u u2 : UnionFind) (h2 : u2.WF) (l w : Nat)
    (hlen2 : u2.len = u.len) (hsz2 : u2.size = u.size)
    (hnum2 : u2.num_roots = u.num_roots)
    (hro12 : ∀ j, j < u.len → u2.rootOf j = u.rootOf j)
    (hfx12 : ∀ j, u2.parent j = j ↔ u.parent j = j)
    (hlu : l < u.len) (hwu : w < u.len)
    (hlr : u.parent l = l) (hwr : u.parent w = w) (hlw : l ≠ w) :
    (linkState u2 l w).WF ∧
    (linkState u2 l w).len = u.len ∧
    (linkState u2 l w).num_roots = u.num_roots - 1 ∧
    (∀ j, j < u.len →
      (linkState u2 l w).rootOf j = if u.rootOf j = l then w else u.rootOf j) ∧
    (linkState u2 l w).parent l = w ∧
    (linkState u2 l w).size w = u.size w + u.size l ∧
    (∀ j, j ≠ w → (linkState u2 l w).size j = u.size j) ∧
    (∀ j, (linkState u2 l w).parent j = j ↔ (u.parent j = j ∧ j ≠ l)) := by
  have hl2 : l < u2.len := by rw [hlen2]; exact hlu
  have hw2 : w < u2.len := by rw [hlen2]; exact hwu
  obtain ⟨hwfL, hcharL, hfixL, hszwL, hszoL, hnumL, hlenL⟩ :=
    linked_spec u2 h2 l w hl2 hw2 ((hfx12 l).2 hlr) ((hfx12 w).2 hwr) hlw
  refine ⟨hwfL, hlenL.trans hlen2, by rw [hnumL, hnum2], ?_, ?_, ?_, ?_, ?_⟩
  · intro j hj
    have hj2 : j < u2.len := by rw [hlen2]; exact hj
    rw [hcharL j hj2, hro12 j hj]
  · show upd u2.parent l w l = w
    rw [upd_self]
  · rw [hszwL, hsz2]
  · intro j hj
    rw [hszoL j hj, hsz2]
  · intro j
    rw [hfixL j, hfx12 j]

/-- The root that survives a successful `union(x, y)`: the larger-size root
of the two (the root of `x` on ties). -/
def unionWinner (u : UnionFind) (x y : Nat) : Nat :=
  if u.size (u.rootOf x) < u.size (u.rootOf y) then u.rootOf y else u.rootOf x

/-- The root that gets attached by a successful `union(x, y)`. -/
def unionLoser (u : UnionFind) (x y : Nat) : Nat :=
  if u.size (u.rootOf x) < u.size (u.rootOf y) then u.rootOf x else u.rootOf y

theorem union_preserve (u : UnionFind) (h : u.WF) (x y : Nat)
    (hx : x < u.len) (hy : y < u.len) :
    (u.union x y).1.len = u.len ∧
    (u.union x y).1.WF ∧
    ((u.union x y).2 = false ↔ u.rootOf x = u.rootOf y) ∧
    ((u.union x y).2 = false →
      (u.union x y).1.num_roots = u.num_roots ∧
      (u.union x y).1.size = u.size ∧
      (∀ j, j < u.len → (u.union x y).1.rootOf j = u.rootOf j) ∧
      (∀ j, (u.union x y).1.parent j = j ↔ u.parent j = j) ∧
      (u.union x y).1.rootsList = u.rootsList) ∧
    ((u.union x y).2 = true →
      (u.union x y).1.num_roots = u.num_roots - 1 ∧
      (∀ j, j < u.len →
        (u.union x y).1.rootOf j =
          if u.rootOf j = u.rootOf x ∨ u.rootOf j = u.rootOf y
          then unionWinner u x y else u.rootOf j) ∧
      (u.union x y).1.parent (unionLoser u x y) = unionWinner u x y ∧
      (u.union x y).1.size (unionWinner u x y)
        = u.size (u.rootOf x) + u.size (u.rootOf y) ∧
      (∀ j, j ≠ unionWinner u x y → (u.union x y).1.size j = u.size j) ∧
      (∀ j, (u.union x y).1.parent j = j ↔
        (u.parent j = j ∧ j ≠ unionLoser u x y))) := by
  obtain ⟨hl1, hs1, hn1, hwf1, hr1, hro1, hfx1, hrl1⟩ := find_preserve u h x hx
  have hy1 : y < (u.find x).1.len := by rw [hl1]; exact hy
  obtain ⟨hl2, hs2, hn2, hwf2, hr2, hro2, hfx2, hrl2⟩ :=
    find_preserve (u.find x).1 hwf1 y hy1
  have hR2 : ((u.find x).1.find y).2 = u.rootOf y := by
    rw [hr2, hro1 y hy]
  have hlen2 : ((u.find x).1.find y).1.len = u.len := by rw [hl2, hl1]
  have hsz2 : ((u.find x).1.find y).1.size = u.size := by rw [hs2, hs1]
  have hnum2 : ((u.find x).1.find y).1.num_roots = u.num_roots := by rw [hn2, hn1]
  have hro12 : ∀ j, j < u.len → ((u.find x).1.find y).1.rootOf j = u.rootOf j := by
    intro j hj
    rw [hro2 j (by rw [hl1]; exact hj), hro1 j hj]
  have hfx12 : ∀ j, (((u.find x).1.find y).1.parent j = j ↔ u.parent j = j) := by
    intro j
    rw [hfx2 j, hfx1 j]
  have hrl12 : ((u.find x).1.find y).1.rootsList = u.rootsList := by
    rw [hrl2, hrl1]
  have hrxlt : u.rootOf x < u.len := (rootedAt_rootOf h hx).2
  have hrylt : u.rootOf y < u.len := (rootedAt_rootOf h hy).2
  have hrxr : u.parent (u.rootOf x) = u.rootOf x := rootOf_is_root h hx
  have hryr : u.parent (u.rootOf y) = u.rootOf y := rootOf_is_root h hy
  have hudef : u.union x y =
      (if (u.find x).2 = ((u.find x).1.find y).2
       then (((u.find x).1.find y).1, false)
       else if ((u.find x).1.find y).1.size ((u.find x).2)
              < ((u.find x).1.find y).1.size (((u.find x).1.find y).2)
       then (linkState ((u.find x).1.find y).1 ((u.find x).2)
              (((u.find x).1.find y).2), true)
       else (linkState ((u.find x).1.find y).1 (((u.find x).1.find y).2)
              ((u.find x).2), true)) := rfl
  rw [hr1, hR2, hsz2] at hudef
  by_cases hxy : u.rootOf x = u.rootOf y
  · rw [if_pos hxy] at hudef
    rw [hudef]
    refine ⟨hlen2, hwf2, by simp [hxy], ?_, by simp⟩
    intro _
    exact ⟨hnum2, hsz2, hro12, hfx12, hrl12⟩
  · rw [if_neg hxy] at hudef
    by_cases hcmp : u.size (u.rootOf x) < u.size (u.rootOf y)
    · rw [if_pos hcmp] at hudef
      have hwdef : unionWinner u x y = u.rootOf y := if_pos hcmp
      have hldef : unionLoser u x y = u.rootOf x := if_pos hcmp
      obtain ⟨hwfL, hlenL, hnumL, hcharL, hparL, hszwL, hszoL, hfixL⟩ :=
        linked_transported u ((u.find x).1.find y).1 hwf2 (u.rootOf x) (u.rootOf y)
          hlen2 hsz2 hnum2 hro12 hfx12 hrxlt hrylt hrxr hryr hxy
      rw [hudef]
      refine ⟨hlenL, hwfL, by simp [hxy], by simp, ?_⟩
      intro _
      rw [hwdef, hldef]
      refine ⟨hnumL, ?_, hparL, by rw [hszwL]; omega, hszoL, hfixL⟩
      intro j hj
      rw [hcharL j hj]
      by_cases hc1 : u.rootOf j = u.rootOf x
      · rw [if_pos hc1, if_pos (Or.inl hc1)]
      · rw [if_neg hc1]
        by_cases hc2 : u.rootOf j = u.rootOf y
        · rw [if_pos (Or.inr hc2), hc2]
        · rw [if_neg (by
            intro hc
            rcases hc with hc | hc
            · exact hc1 hc
            · exact hc2 hc)]
    · rw [if_neg hcmp] at hudef
      have hwdef : unionWinner u x y = u.rootOf x := if_neg hcmp
      have hldef : unionLoser u x y = u.rootOf y := if_neg hcmp
      have hyx : u.rootOf y ≠ u.rootOf x := fun he => hxy he.symm
      obtain ⟨hwfL, hlenL, hnumL, hcharL, hparL, hszwL, hszoL, hfixL⟩ :=
        linked_transported u ((u.find x).1.find y).1 hwf2 (u.rootOf y) (u.rootOf x)
          hlen2 hsz2 hnum2 hro12 hfx12 hrylt hrxlt hryr hrxr hyx
      rw [hudef]
      refine ⟨hlenL, hwfL, by simp [hxy], by simp, ?_⟩
      intro _
      rw [hwdef, hldef]
      refine ⟨hnumL, ?_, hparL, hszwL, hszoL, hfixL⟩
      intro j hj
      rw [hcharL j hj]
      by_cases hc1 : u.rootOf j = u.rootOf y
      · rw [if_pos hc1, if_pos (Or.inr hc1)]
      · rw [if_neg hc1]
        by_cases hc2 : u.rootOf j = u.rootOf x
        · rw [if_pos (Or.inl hc2), hc2]
        · rw [if_neg (by
            intro hc
            rcases hc with hc | hc
            · exact hc2 hc
            · exact hc1 hc)]

theorem rootAux_id : ∀ fuel i, rootAux (fun j => j) fuel i = i := by
  intro fuel i
  cases fuel <;> simp [rootAux]

theorem rootOf_new (n i : Nat) : (UnionFind.new n).rootOf i = i :=
  rootAux_id n i

theorem new_wf (n : Nat) : (UnionFind.new n).WF := by
  refine ⟨?_, ?_, ?_, ?_, ?_, ?_⟩
  · intro i hi
    exact hi
  · intro i _
    exact le_refl 1
  · intro i hi
    show 1 ≤ n
    have h2 : i < n := hi
    omega
  · intro i _ hne
    exact absurd rfl hne
  · intro r hr _
    show 1 = (UnionFind.new n).classCard r
    unfold UnionFind.classCard
    have : (Finset.range (UnionFind.new n).len).filter
        (fun j => (UnionFind.new n).rootOf j = r) = {r} := by
      have h1 : ∀ j, (UnionFind.new n).rootOf j = r ↔ j = r := by
        intro j
        rw [rootOf_new]
      rw [Finset.filter_congr (fun j _ => h1 j), Finset.filter_eq']
      rw [if_pos (Finset.mem_range.mpr hr)]
    rw [this, Finset.card_singleton]
  · show n = _
    have hfil : (Finset.range (UnionFind.new n).len).filter
        (fun i => (UnionFind.new n).parent i = i)
        = Finset.range (UnionFind.new n).len :=
      Finset.filter_true_of_mem (fun x _ => rfl)
    rw [hfil, Finset.card_range]
    rfl

theorem findAux_at_root {p : Nat → Nat} {i : Nat} (h : p i = i) :
    ∀ fuel, findAux p fuel i = (p, i) := by
  intro fuel
  cases fuel with
  | zero => rfl
  | succ fuel => simp [findAux, h]

theorem find_at_root {u : UnionFind} {r : Nat} (h : u.parent r = r) :
    u.find r = (u, r) := by
  unfold UnionFind.find
  rw [findAux_at_root h]

/-- One call of the public API, modelling a statement `uf.union(x, y);` or
`uf.find(x);` in a caller. -/
inductive UFOp where
  | unionOp (x y : Nat)
  | findOp (x : Nat)

/-- Apply one call, keeping the updated structure. -/
def applyOp (u : UnionFind) : UFOp → UnionFind
  | .unionOp x y => (u.union x y).1
  | .findOp x => (u.find x).1

/-- Run a sequence of calls from left to right. -/
def runOps (u : UnionFind) (ops : List UFOp) : UnionFind :=
  ops.foldl applyOp u

/-- The arguments of a call are in range for a structure of `n` elements
(out-of-range arguments panic in the source and are a caller precondition). -/
def opInRange (n : Nat) : UFOp → Bool
  | .unionOp x y => decide (x < n) && decide (y < n)
  | .findOp x => decide (x < n)

theorem applyOp_wf {u : UnionFind} (h : u.WF) {op : UFOp}
    (hop : opInRange u.len op = true) :
    (applyOp u op).WF ∧ (applyOp u op).len = u.len := by
  cases op with
  | unionOp x y =>
    simp only [opInRange, Bool.and_eq_true, decide_eq_true_eq] at hop
    have spec := union_preserve u h x y hop.1 hop.2
    exact ⟨spec.2.1, spec.1⟩
  | findOp x =>
    simp only [opInRange, decide_eq_true_eq] at hop
    have spec := find_preserve u h x hop
    exact ⟨spec.2.2.2.1, spec.1⟩

theorem runOps_wf {u : UnionFind} (h : u.WF) {ops : List UFOp}
    (hops : ∀ op ∈ ops, opInRange u.len op = true) :
    (runOps u ops).WF ∧ (runOps u ops).len = u.len := by
  induction ops generalizing u with
  | nil => exact ⟨h, rfl⟩
  | cons op ops ih =>
    have hop := hops op (List.mem_cons_self op ops)
    have happ := applyOp_wf h hop
    have htail := ih happ.1 (by
      intro o ho
      rw [happ.2]
      exact hops o (List.mem_cons_of_mem op ho))
    exact ⟨htail.1, htail.2.trans happ.2⟩

theorem roots_image {u : UnionFind} (h : u.WF) :
    (Finset.range u.len).image u.rootOf
      = (Finset.range u.len).filter (fun i => u.parent i = i) := by
  ext r
  rw [Finset.mem_image, Finset.mem_filter, Finset.mem_range]
  constructor
  · intro ⟨j, hj, hr⟩
    rw [Finset.mem_range] at hj
    subst hr
    exact ⟨(rootedAt_rootOf h hj).2, rootOf_is_root h hj⟩
  · intro ⟨hr, hfix⟩
    exact ⟨r, Finset.mem_range.mpr hr, rootOf_root h hr hfix⟩

theorem card_filter_range (n : Nat) (p : Nat → Prop) [DecidablePred p] :
    ((Finset.range n).filter p).card
      = ((List.range n).filter (fun i => decide (p i))).length := by
  induction n with
  | zero => simp
  | succ n ih =>
    rw [Finset.range_succ, List.range_succ, Finset.filter_insert, List.filter_append]
    by_cases hp : p n
    · rw [if_pos hp, Finset.card_insert_of_not_mem (by
        rw [Finset.mem_filter]
        intro hc
        exact absurd (Finset.mem_range.mp hc.1) (lt_irrefl n))]
      simp [hp, ih]
    · rw [if_neg hp]
      simp [hp, ih]

theorem rootsList_eq (u : UnionFind) :
    u.rootsList = ((List.range u.len).filter (fun i => decide (u.parent i = i))).map
      (fun r => (r, u.size r)) := by
  unfold UnionFind.rootsList
  induction (List.range u.len) with
  | nil => rfl
  | cons a l ih =>
    by_cases ha : u.parent a = a
    · simp [ha, ih]
    · simp [ha, ih]

theorem num_roots_eq_length (u : UnionFind) (h : u.WF) :
    u.num_roots = u.rootsList.length := by
  rw [rootsList_eq, List.length_map, h.2.2.2.2.2, card_filter_range]

theorem map_congr_mem {α β : Type} (l : List α) (f g : α → β)
    (h : ∀ x ∈ l, f x = g x) : l.map f = l.map g := by
  induction l with
  | nil => rfl
  | cons a l ih =>
    show f a :: l.map f = g a :: l.map g
    rw [h a (List.mem_cons_self a l), ih (fun x hx => h x (List.mem_cons_of_mem a hx))]

/-- One sequential pass of `find` calls over a given list of elements,
collecting the returned roots; each call passes the mutated structure on. -/
def findSeq (u : UnionFind) : List Nat → List Nat
  | [] => []
  | x :: xs => (u.find x).2 :: findSeq (u.find x).1 xs

/-- `find(x)` for every `x` in `0..len`, sequentially. -/
def findAll (u : UnionFind) : List Nat :=
  findSeq u (List.range u.len)

theorem findSeq_eq_map {u : UnionFind} (h : u.WF) {xs : List Nat}
    (hxs : ∀ x ∈ xs, x < u.len) : findSeq u xs = xs.map u.rootOf := by
  induction xs generalizing u with
  | nil => rfl
  | cons x xs ih =>
    have hx : x < u.len := hxs x (List.mem_cons_self x xs)
    obtain ⟨hl1, _, _, hwf1, hr1, hro1, _, _⟩ := find_preserve u h x hx
    show (u.find x).2 :: findSeq (u.find x).1 xs = u.rootOf x :: xs.map u.rootOf
    rw [hr1]
    have htail : findSeq (u.find x).1 xs = xs.map (u.find x).1.rootOf :=
      ih hwf1 (by
        intro a ha
        rw [hl1]
        exact hxs a (List.mem_cons_of_mem x ha))
    rw [htail]
    exact congrArg _ (map_congr_mem xs _ _
      (fun a ha => hro1 a (hxs a (List.mem_cons_of_mem x ha))))

theorem findAll_dedup_length {u : UnionFind} (h : u.WF) :
    (findAll u).dedup.length = u.num_roots := by
  have hmap : findAll u = (List.range u.len).map u.rootOf :=
    findSeq_eq_map h (fun x hx => List.mem_range.mp hx)
  have himg : ((List.range u.len).map u.rootOf).toFinset
      = (Finset.range u.len).image u.rootOf := by
    ext a
    rw [List.mem_toFinset, List.mem_map, Finset.mem_image]
    constructor
    · rintro ⟨j, hj, hja⟩
      exact ⟨j, Finset.mem_range.mpr (List.mem_range.mp hj), hja⟩
    · rintro ⟨j, hj, hja⟩
      exact ⟨j, List.mem_range.mpr (Finset.mem_range.mp hj), hja⟩
  rw [hmap, ← List.card_toFinset, himg, roots_image h, ← h.2.2.2.2.2]

theorem sum_roots_sizes {u : UnionFind} (h : u.WF) :
    (u.rootsList.map Prod.snd).sum = u.len := by
  obtain ⟨h1, h2, h3, h4, h5, h6⟩ := h
  have hwf : u.WF := ⟨h1, h2, h3, h4, h5, h6⟩
  rw [rootsList_eq, List.map_map]
  have hcomp : (Prod.snd ∘ fun r => (r, u.size r)) = u.size := rfl
  rw [hcomp]
  have hnd : ((List.range u.len).filter (fun i => decide (u.parent i = i))).Nodup :=
    List.Nodup.filter _ (List.nodup_range u.len)
  have hrg : (List.range u.len).toFinset = Finset.range u.len := by
    ext a
    rw [List.mem_toFinset, List.mem_range, Finset.mem_range]
  have htf : ((List.range u.len).filter (fun i => decide (u.parent i = i))).toFinset
      = (Finset.range u.len).filter (fun i => u.parent i = i) := by
    rw [List.toFinset_filter, hrg]
    apply Finset.filter_congr
    intro j _
    simp
  rw [← List.sum_toFinset _ hnd, htf]
  have hfib := Finset.card_eq_sum_card_fiberwise
    (f := u.rootOf) (s := Finset.range u.len)
    (t := (Finset.range u.len).filter (fun i => u.parent i = i))
    (by
      intro j hj
      rw [Finset.mem_range] at hj
      rw [Finset.mem_filter, Finset.mem_range]
      exact ⟨(rootedAt_rootOf hwf hj).2, rootOf_is_root hwf hj⟩)
  rw [Finset.card_range] at hfib
  have hsum2 : ((Finset.range u.len).filter (fun i => u.parent i = i)).sum u.size
      = ∑ b in (Finset.range u.len).filter (fun i => u.parent i = i),
          ((Finset.range u.len).filter (fun a => u.rootOf a = b)).card := by
    apply Finset.sum_congr rfl
    intro r hr
    rw [Finset.mem_filter, Finset.mem_range] at hr
    exact h5 r hr.1 hr.2
  rw [hsum2]
  exact hfib.symm

/-- C5: `UnionFind::new(N).num_roots()` equals `N`, and after any sequence
of in-range `union` and `find` calls, `num_roots()` equals the number of
distinct values returned by sequentially calling `find(x)` for `x` in
`0..N`, equals the number of pairs yielded by `roots()`, and the sizes
yielded by `roots()` sum to `N`. -/
theorem uf_counting_invariants (N : Nat) (ops : List UFOp)
    (hops : ∀ op ∈ ops, opInRange N op = true) :
    (UnionFind.new N).num_roots = N ∧
    (runOps (UnionFind.new N) ops).num_roots
      = (findAll (runOps (UnionFind.new N) ops)).dedup.length ∧
    (runOps (UnionFind.new N) ops).num_roots
      = (runOps (UnionFind.new N) ops).rootsList.length ∧
    ((runOps (UnionFind.new N) ops).rootsList.map Prod.snd).sum = N := by
  have hops' : ∀ op ∈ ops, opInRange (UnionFind.new N).len op = true := hops
  obtain ⟨hwf, hlen⟩ := runOps_wf (new_wf N) hops'
  refine ⟨rfl, (findAll_dedup_length hwf).symm, num_roots_eq_length _ hwf, ?_⟩
  rw [sum_roots_sizes hwf]
  exact hlen

theorem uf_counting_invariants_witness :
    (UnionFind.new 3).num_roots = 3 ∧
    (runOps (UnionFind.new 3) [UFOp.unionOp 0 1, UFOp.findOp 2, UFOp.unionOp 1 2]).num_roots
      = (findAll (runOps (UnionFind.new 3)
          [UFOp.unionOp 0 1, UFOp.findOp 2, UFOp.unionOp 1 2])).dedup.length ∧
    (runOps (UnionFind.new 3) [UFOp.unionOp 0 1, UFOp.findOp 2, UFOp.unionOp 1 2]).num_roots
      = (runOps (UnionFind.new 3)
          [UFOp.unionOp 0 1, UFOp.findOp 2, UFOp.unionOp 1 2]).rootsList.length ∧
    ((runOps (UnionFind.new 3)
        [UFOp.unionOp 0 1, UFOp.findOp 2, UFOp.unionOp 1 2]).rootsList.map Prod.snd).sum = 3 :=
  uf_counting_invariants 3 [UFOp.unionOp 0 1, UFOp.findOp 2, UFOp.unionOp 1 2] (by decide)

/-- C7: for a well-formed state and in-range `x, y`, `union(x, y)` returns
`false` and changes nothing observable (partition, root sizes, `num_roots`,
`roots()`) when `x` and `y` already share a root (the `find` calls may still
rewrite parent pointers by path halving, which is invisible to every public
query); otherwise it attaches the root of the smaller-size set under the
root of the larger-size set comparing sizes only, sets the surviving root's
size to the sum of the two sizes, decrements `num_roots` by exactly one,
and returns `true`. -/
theorem union_contract (u : UnionFind) (h : u.WF) (x y : Nat)
    (hx : x < u.len) (hy : y < u.len) :
    (u.rootOf x = u.rootOf y →
      (u.union x y).2 = false ∧
      (u.union x y).1.num_roots = u.num_roots ∧
      (u.union x y).1.size = u.size ∧
      (∀ j, j < u.len → (u.union x y).1.rootOf j = u.rootOf j) ∧
      (u.union x y).1.rootsList = u.rootsList) ∧
    (u.rootOf x ≠ u.rootOf y →
      (u.union x y).2 = true ∧
      (u.union x y).1.parent (unionLoser u x y) = unionWinner u x y ∧
      u.size (unionLoser u x y) ≤ u.size (unionWinner u x y) ∧
      (u.union x y).1.size (unionWinner u x y)
        = u.size (u.rootOf x) + u.size (u.rootOf y) ∧
      u.num_roots = (u.union x y).1.num_roots + 1) := by
  obtain ⟨hlen, hwfU, hiff, hfalse, htrue⟩ := union_preserve u h x y hx hy
  constructor
  · intro hxy
    have hres : (u.union x y).2 = false := hiff.mpr hxy
    obtain ⟨ha, hb, hc, hd, he⟩ := hfalse hres
    exact ⟨hres, ha, hb, hc, he⟩
  · intro hxy
    have hres : (u.union x y).2 = true := by
      cases hb : (u.union x y).2 with
      | false => exact absurd (hiff.mp hb) hxy
      | true => rfl
    obtain ⟨ha, hb, hc, hd, he, hf⟩ := htrue hres
    have hcmp : u.size (unionLoser u x y) ≤ u.size (unionWinner u x y) := by
      unfold unionLoser unionWinner
      by_cases hlt : u.size (u.rootOf x) < u.size (u.rootOf y)
      · rw [if_pos hlt, if_pos hlt]
        omega
      · rw [if_neg hlt, if_neg hlt]
        omega
    have h2 : 2 ≤ u.num_roots := by
      have hsub : ({u.rootOf x, u.rootOf y} : Finset Nat)
          ⊆ (Finset.range u.len).filter (fun i => u.parent i = i) := by
        intro a ha
        rw [Finset.mem_insert, Finset.mem_singleton] at ha
        rw [Finset.mem_filter, Finset.mem_range]
        rcases ha with ha | ha <;> subst ha
        · exact ⟨(rootedAt_rootOf h hx).2, rootOf_is_root h hx⟩
        · exact ⟨(rootedAt_rootOf h hy).2, rootOf_is_root h hy⟩
      have hcard : ({u.rootOf x, u.rootOf y} : Finset Nat).card = 2 :=
        Finset.card_pair hxy
      have := Finset.card_le_card hsub
      rw [hcard] at this
      rw [h.2.2.2.2.2]
      exact this
    exact ⟨hres, hc, hcmp, hd, by omega⟩

theorem union_contract_witness :
    ((UnionFind.new 2).rootOf 0 = (UnionFind.new 2).rootOf 1 →
      ((UnionFind.new 2).union 0 1).2 = false ∧
      ((UnionFind.new 2).union 0 1).1.num_roots = (UnionFind.new 2).num_roots ∧
      ((UnionFind.new 2).union 0 1).1.size = (UnionFind.new 2).size ∧
      (∀ j, j < (UnionFind.new 2).len →
        ((UnionFind.new 2).union 0 1).1.rootOf j = (UnionFind.new 2).rootOf j) ∧
      ((UnionFind.new 2).union 0 1).1.rootsList = (UnionFind.new 2).rootsList) ∧
    ((UnionFind.new 2).rootOf 0 ≠ (UnionFind.new 2).rootOf 1 →
      ((UnionFind.new 2).union 0 1).2 = true ∧
      ((UnionFind.new 2).union 0 1).1.parent (unionLoser (UnionFind.new 2) 0 1)
        = unionWinner (UnionFind.new 2) 0 1 ∧
      (UnionFind.new 2).size (unionLoser (UnionFind.new 2) 0 1)
        ≤ (UnionFind.new 2).size (unionWinner (UnionFind.new 2) 0 1) ∧
      ((UnionFind.new 2).union 0 1).1.size (unionWinner (UnionFind.new 2) 0 1)
        = (UnionFind.new 2).size ((UnionFind.new 2).rootOf 0)
          + (UnionFind.new 2).size ((UnionFind.new 2).rootOf 1) ∧
      (UnionFind.new 2).num_roots = ((UnionFind.new 2).union 0 1).1.num_roots + 1) :=
  union_contract (UnionFind.new 2) (by decide) 0 1 (by decide) (by decide)

/-- C8: for a well-formed state and in-range `x`, `find(x)` returns a root
(`find(find(x)) == find(x)`, and the second call does not even change the
state), and calling `find` never changes set membership: two elements share
a root after the call exactly when they shared one before, even though
parent pointers may be rewritten by path halving. -/
theorem find_contract (u : UnionFind) (h : u.WF) (x : Nat) (hx : x < u.len) :
    (u.find x).1.parent ((u.find x).2) = (u.find x).2 ∧
    ((u.find x).1.find ((u.find x).2)).2 = (u.find x).2 ∧
    ((u.find x).1.find ((u.find x).2)).1 = (u.find x).1 ∧
    (∀ y z, y < u.len → z < u.len →
      ((u.find x).1.rootOf y = (u.find x).1.rootOf z ↔ u.rootOf y = u.rootOf z)) := by
  obtain ⟨hl1, hs1, hn1, hwf1, hr1, hro1, hfx1, hrl1⟩ := find_preserve u h x hx
  have hroot : (u.find x).1.parent ((u.find x).2) = (u.find x).2 := by
    rw [hr1]
    exact (hfx1 (u.rootOf x)).mpr (rootOf_is_root h hx)
  have hff := find_at_root hroot
  refine ⟨hroot, by rw [hff], by rw [hff], ?_⟩
  intro y z hy hz
  rw [hro1 y hy, hro1 z hz]

theorem find_contract_witness :
    ((UnionFind.new 2).find 0).1.parent (((UnionFind.new 2).find 0).2)
      = ((UnionFind.new 2).find 0).2 ∧
    (((UnionFind.new 2).find 0).1.find (((UnionFind.new 2).find 0).2)).2
      = ((UnionFind.new 2).find 0).2 ∧
    (((UnionFind.new 2).find 0).1.find (((UnionFind.new 2).find 0).2)).1
      = ((UnionFind.new 2).find 0).1 ∧
    (∀ y z, y < (UnionFind.new 2).len → z < (UnionFind.new 2).len →
      (((UnionFind.new 2).find 0).1.rootOf y = ((UnionFind.new 2).find 0).1.rootOf z
        ↔ (UnionFind.new 2).rootOf y = (UnionFind.new 2).rootOf z)) :=
  find_contract (UnionFind.new 2) (by decide) 0 (by decide)

/-- C9: calling `union(x, y)` twice in succession has the same observable
effect as calling it once: the second call returns `false` and leaves the
partition, all root sizes, `num_roots` and `roots()` unchanged. -/
theorem union_idempotent (u : UnionFind) (h : u.WF) (x y : Nat)
    (hx : x < u.len) (hy : y < u.len) :
    ((u.union x y).1.union x y).2 = false ∧
    ((u.union x y).1.union x y).1.num_roots = (u.union x y).1.num_roots ∧
    ((u.union x y).1.union x y).1.size = (u.union x y).1.size ∧
    (∀ j, j < u.len →
      ((u.union x y).1.union x y).1.rootOf j = (u.union x y).1.rootOf j) ∧
    ((u.union x y).1.union x y).1.rootsList = (u.union x y).1.rootsList := by
  obtain ⟨hlen, hwfU, hiff, hfalse, htrue⟩ := union_preserve u h x y hx hy
  have hx1 : x < (u.union x y).1.len := by rw [hlen]; exact hx
  have hy1 : y < (u.union x y).1.len := by rw [hlen]; exact hy
  have heq : (u.union x y).1.rootOf x = (u.union x y).1.rootOf y := by
    cases hb : (u.union x y).2 with
    | false =>
      obtain ⟨_, _, hro, _, _⟩ := hfalse hb
      rw [hro x hx, hro y hy]
      exact hiff.mp hb
    | true =>
      obtain ⟨_, hchar, _, _, _, _⟩ := htrue hb
      rw [hchar x hx, hchar y hy, if_pos (Or.inl rfl), if_pos (Or.inr rfl)]
  obtain ⟨hlen2, hwfU2, hiff2, hfalse2, _⟩ :=
    union_preserve (u.union x y).1 hwfU x y hx1 hy1
  have hres2 : ((u.union x y).1.union x y).2 = false := hiff2.mpr heq
  obtain ⟨ha, hb, hc, hd, he⟩ := hfalse2 hres2
  refine ⟨hres2, ha, hb, ?_, he⟩
  intro j hj
  exact hc j (by rw [hlen]; exact hj)

theorem union_idempotent_witness :
    (((UnionFind.new 2).union 0 1).1.union 0 1).2 = false ∧
    (((UnionFind.new 2).union 0 1).1.union 0 1).1.num_roots
      = ((UnionFind.new 2).union 0 1).1.num_roots ∧
    (((UnionFind.new 2).union 0 1).1.union 0 1).1.size
      = ((UnionFind.new 2).union 0 1).1.size ∧
    (∀ j, j < (UnionFind.new 2).len →
      (((UnionFind.new 2).union 0 1).1.union 0 1).1.rootOf j
        = ((UnionFind.new 2).union 0 1).1.rootOf j) ∧
    (((UnionFind.new 2).union 0 1).1.union 0 1).1.rootsList
      = ((UnionFind.new 2).union 0 1).1.rootsList :=
  union_idempotent (UnionFind.new 2) (by decide) 0 1 (by decide) (by decide)

/-- The modulus of Rust `u64` arithmetic (which wraps in release builds;
the overflow is a program error either way, never the exact value). -/
def u64Mod : Nat := 2 ^ 64

/-- Model of `struct Point { x: u32, y: u32, z: u32 }` from `src/day_08.rs`:
coordinates are `u32` values, naturals below `2^32`. -/
structure Point3 where
  x : Nat
  y : Nat
  z : Nat
deriving DecidableEq

/-- `Point::dist_sq` from `src/day_08.rs`: `u32::abs_diff` of each
coordinate widened to `u64`, then `dx * dx + dy * dy + dz * dz` in `u64`
arithmetic; each square fits, but the additions reduce modulo `2^64`. -/
def Point3.dist_sq (p q : Point3) : Nat :=
  let dx := max p.x q.x - min p.x q.x
  let dy := max p.y q.y - min p.y q.y
  let dz := max p.z q.z - min p.z q.z
  (dx * dx + dy * dy + dz * dz) % u64Mod

/-- The exact squared Euclidean distance of the integer coordinate
differences, as the claim states it (no reduction). -/
def exactDistSq (p q : Point3) : Nat :=
  let dx := max p.x q.x - min p.x q.x
  let dy := max p.y q.y - min p.y q.y
  let dz := max p.z q.z - min p.z q.z
  dx * dx + dy * dy + dz * dz

/-- C6 counterexample: for the representable `u32` coordinates
`(2^32 - 1, 2^32 - 1, 0)` and `(0, 0, 0)` the sum of squares is
`2^65 - 2^34 + 2 ≥ 2^64`, so `dist_sq` does not equal the exact squared
Euclidean distance (release builds wrap, debug builds panic). -/
theorem dist_sq_overflow_counterexample :
    (2 ^ 32 - 1 < 2 ^ 32 ∧ (0 : Nat) < 2 ^ 32) ∧
    Point3.dist_sq ⟨2 ^ 32 - 1, 2 ^ 32 - 1, 0⟩ ⟨0, 0, 0⟩
      ≠ exactDistSq ⟨2 ^ 32 - 1, 2 ^ 32 - 1, 0⟩ ⟨0, 0, 0⟩ := by
  decide

/-- C6 amended: `dist_sq` equals the exact squared Euclidean distance
whenever that exact value fits in `u64` (in particular no floating point is
involved and no precision is lost then); for coordinate differences whose
squares sum to `2^64` or more the `u64` additions overflow instead. -/
theorem dist_sq_exact_no_overflow (p q : Point3)
    (h : exactDistSq p q < u64Mod) : p.dist_sq q = exactDistSq p q :=
  Nat.mod_eq_of_lt h

theorem dist_sq_exact_no_overflow_witness :
    exactDistSq ⟨1, 2, 3⟩ ⟨4, 6, 3⟩ < u64Mod ∧
    Point3.dist_sq ⟨1, 2, 3⟩ ⟨4, 6, 3⟩ = exactDistSq ⟨1, 2, 3⟩ ⟨4, 6, 3⟩ :=
  ⟨by decide, dist_sq_exact_no_overflow ⟨1, 2, 3⟩ ⟨4, 6, 3⟩ (by decide)⟩

/-- Indexing `points[i]` (all uses below are in range). -/
def pointAt (ps : List Point3) (i : Nat) : Point3 :=
  ps.getD i ⟨0, 0, 0⟩

/-- The pair list both day-8 operations build: for each `i`, for each
`j < i`, the tuple `(p_i.dist_sq(p_j), j, i)`. -/
def allPairs (ps : List Point3) : List (Nat × Nat × Nat) :=
  (List.range ps.length).flatMap (fun i =>
    (List.range i).map (fun j => ((pointAt ps i).dist_sq (pointAt ps j), j, i)))

/-- The order in which `BinaryHeap<(Reverse<u64>, usize, usize)>` pops its
elements: ascending distance, ties by descending `(j, i)`. The tuples of
`allPairs` are pairwise distinct in `(j, i)`, so the pop sequence of the
heap is exactly the unique listing of the pairs in this strict order. -/
def popLE (a b : Nat × Nat × Nat) : Prop :=
  a.1 < b.1 ∨ (a.1 = b.1 ∧ (b.2.1 < a.2.1 ∨ (b.2.1 = a.2.1 ∧ b.2.2 ≤ a.2.2)))

instance : DecidableRel popLE := fun a b => by
  unfold popLE
  infer_instance

instance : IsTotal (Nat × Nat × Nat) popLE :=
  ⟨fun a b => by unfold popLE; omega⟩

instance : IsTrans (Nat × Nat × Nat) popLE :=
  ⟨fun a b c hab hbc => by
    unfold popLE at *
    omega⟩

/-- The full pop sequence of the heap of `last_connection`. -/
def sortedEdges (ps : List Point3) : List (Nat × Nat × Nat) :=
  List.insertionSort popLE (allPairs ps)

/-- The `while uf.num_roots() > 1 && let Some((_, i, j)) = heap.pop()` loop
of `last_connection`, over the pop sequence: each popped edge is offered to
`union`, and `last_union` is overwritten on every successful union. -/
def kruskalLoop : List (Nat × Nat × Nat) → UnionFind → Option (Nat × Nat) →
    UnionFind × Option (Nat × Nat)
  | [], uf, last => (uf, last)
  | e :: rest, uf, last =>
    if 1 < uf.num_roots then
      kruskalLoop rest (uf.union e.2.1 e.2.2).1
        (if (uf.union e.2.1 e.2.2).2 then some (e.2.1, e.2.2) else last)
    else (uf, last)

/-- The subsequence of edges of the same loop whose `union` returned
`true` (the edges actually unioned), in processing order. -/
def kruskalLog : List (Nat × Nat × Nat) → UnionFind → List (Nat × Nat × Nat)
  | [], _ => []
  | e :: rest, uf =>
    if 1 < uf.num_roots then
      if (uf.union e.2.1 e.2.2).2 then e :: kruskalLog rest (uf.union e.2.1 e.2.2).1
      else kruskalLog rest (uf.union e.2.1 e.2.2).1
    else []

/-- `last_connection` up to the final `expect`: the `(i, j)` recorded by the
last successful union, or `none` when `last_union` is still `None` at the
end of the loop (the source panics there). -/
def lastConnectionPair (ps : List Point3) : Option (Nat × Nat) :=
  (kruskalLoop (sortedEdges ps) (UnionFind.new ps.length) none).2

/-- `last_connection` from `src/day_08.rs`: `points[i].x * points[j].x` as
`u64` for the recorded pair, `none` modelling the panic of the `expect`. -/
def last_connection (ps : List Point3) : Option Nat :=
  (lastConnectionPair ps).map
    (fun e => (pointAt ps e.1).x * (pointAt ps e.2).x % u64Mod)

/-- Lexicographic `Ord` of Rust `(u64, usize, usize)` tuples. -/
def pairLE (a b : Nat × Nat × Nat) : Prop :=
  a.1 < b.1 ∨ (a.1 = b.1 ∧ (a.2.1 < b.2.1 ∨ (a.2.1 = b.2.1 ∧ a.2.2 ≤ b.2.2)))

instance : DecidableRel pairLE := fun a b => by
  unfold pairLE
  infer_instance

instance : IsTotal (Nat × Nat × Nat) pairLE :=
  ⟨fun a b => by unfold pairLE; omega⟩

instance : IsTrans (Nat × Nat × Nat) pairLE :=
  ⟨fun a b c hab hbc => by
    unfold pairLE at *
    omega⟩

/-- The `connections` smallest pair tuples: `select_nth_unstable` leaves
exactly the `connections` smallest tuples (a deterministic set, since the
tuples are pairwise distinct under the total lexicographic order) in the
`small` slice, in an unspecified order that the rest of the function is
insensitive to. -/
def kSmallest (ps : List Point3) (k : Nat) : List (Nat × Nat × Nat) :=
  (List.insertionSort pairLE (allPairs ps)).take k

/-- The disjoint-set state after unioning the `k` smallest pairs. -/
def afterKUnions (ps : List Point3) (k : Nat) : UnionFind :=
  (kSmallest ps k).foldl (fun u e => (u.union e.2.1 e.2.2).1)
    (UnionFind.new ps.length)

/-- `groups_after_connecting` from `src/day_08.rs`:
`select_nth_unstable(connections)` (panics when `connections` is not below
the number of pairs, modelled `none`), union every pair of the `small`
slice, collect the root sizes, sort ascending, and multiply the top three
(iterating the sorted sizes in reverse) in `u64` arithmetic. -/
def groups_after_connecting (ps : List Point3) (connections : Nat) : Option Nat :=
  if connections < (allPairs ps).length then
    let sizes := List.insertionSort (· ≤ ·)
      ((afterKUnions ps connections).rootsList.map Prod.snd)
    some ((sizes.reverse.take 3).foldl (fun acc s => acc * s % u64Mod) 1)
  else none

/-- The product of the three largest component sizes, all of them when
fewer than three exist, the way the claim words it. -/
def topThreeProduct (sizes : List Nat) : Nat :=
  ((List.insertionSort (fun a b : Nat => b ≤ a) sizes).take 3).prod

theorem union_num_roots (u : UnionFind) (x y : Nat) :
    (u.union x y).1.num_roots
      = if (u.union x y).2 = true then u.num_roots - 1 else u.num_roots := by
  unfold UnionFind.union
  by_cases h1 : (u.find x).2 = ((u.find x).1.find y).2
  · rw [if_pos h1]
    simp
    rfl
  · rw [if_neg h1]
    by_cases h2 : ((u.find x).1.find y).1.size ((u.find x).2)
        < ((u.find x).1.find y).1.size (((u.find x).1.find y).2)
    · rw [if_pos h2]
      simp [linkState]
      rfl
    · rw [if_neg h2]
      simp [linkState]
      rfl

theorem kruskal_count : ∀ (es : List (Nat × Nat × Nat)) (uf : UnionFind)
    (last : Option (Nat × Nat)),
    (kruskalLoop es uf last).1.num_roots + (kruskalLog es uf).length
      = uf.num_roots := by
  intro es
  induction es with
  | nil =>
    intro uf last
    simp [kruskalLoop, kruskalLog]
  | cons e rest ih =>
    intro uf last
    by_cases hg : 1 < uf.num_roots
    · have hnr := union_num_roots uf e.2.1 e.2.2
      by_cases hu : (uf.union e.2.1 e.2.2).2 = true
      · rw [if_pos hu] at hnr
        simp only [kruskalLoop, kruskalLog, if_pos hg, if_pos hu, List.length_cons]
        have := ih (uf.union e.2.1 e.2.2).1 (some (e.2.1, e.2.2))
        omega
      · rw [if_neg hu] at hnr
        simp only [kruskalLoop, kruskalLog, if_pos hg, if_neg hu]
        have := ih (uf.union e.2.1 e.2.2).1 last
        omega
    · simp [kruskalLoop, kruskalLog, hg]

theorem kruskal_stop (es : List (Nat × Nat × Nat)) (uf : UnionFind)
    (last : Option (Nat × Nat)) (h : uf.num_roots ≤ 1) :
    kruskalLoop es uf last = (uf, last) := by
  cases es with
  | nil => rfl
  | cons e rest => simp [kruskalLoop, Nat.not_lt.mpr h]

theorem getLast?_cons_getD (a : α) (l : List α) :
    (a :: l).getLast? = some (l.getLast?.getD a) := by
  induction l generalizing a with
  | nil => rfl
  | cons b l ih =>
    rw [List.getLast?_cons_cons, ih b]
    rfl

theorem mem_of_getLast?_eq : ∀ {l : List α} {m : α}, l.getLast? = some m → m ∈ l := by
  intro l
  induction l with
  | nil => intro m h; simp at h
  | cons a l ih =>
    intro m h
    rw [getLast?_cons_getD] at h
    cases hL : l.getLast? with
    | none =>
      rw [hL] at h
      simp at h
      subst h
      exact List.mem_cons_self a l
    | some m' =>
      rw [hL] at h
      simp at h
      subst h
      exact List.mem_cons_of_mem a (ih hL)

theorem pairwise_getLast_max :
    ∀ {l : List (Nat × Nat × Nat)} {m : Nat × Nat × Nat},
      l.Pairwise (fun a b => a.1 ≤ b.1) → l.getLast? = some m →
      ∀ e ∈ l, e.1 ≤ m.1 := by
  intro l
  induction l with
  | nil => intro m _ hm; simp at hm
  | cons a l ih =>
    intro m hp hm e he
    rw [List.pairwise_cons] at hp
    rw [getLast?_cons_getD] at hm
    cases hL : l.getLast? with
    | none =>
      have hnil : l = [] := by
        cases l with
        | nil => rfl
        | cons b l' => rw [getLast?_cons_getD] at hL; simp at hL
      subst hnil
      rw [hL] at hm
      simp at hm
      subst hm
      simp at he
      subst he
      exact le_refl _
    | some m' =>
      rw [hL] at hm
      simp at hm
      subst hm
      rcases List.mem_cons.mp he with he | he
      · subst he
        exact hp.1 m' (mem_of_getLast?_eq hL)
      · exact ih hp.2 hL e he

theorem kruskal_last_log : ∀ (es : List (Nat × Nat × Nat)) (uf : UnionFind)
    (last : Option (Nat × Nat)),
    (kruskalLoop es uf last).2
      = ((kruskalLog es uf).getLast?).elim last (fun e => some (e.2.1, e.2.2)) := by
  intro es
  induction es with
  | nil =>
    intro uf last
    rfl
  | cons e rest ih =>
    intro uf last
    by_cases hg : 1 < uf.num_roots
    · by_cases hu : (uf.union e.2.1 e.2.2).2 = true
      · simp only [kruskalLoop, kruskalLog, if_pos hg, if_pos hu]
        rw [ih (uf.union e.2.1 e.2.2).1 (some (e.2.1, e.2.2))]
        rw [getLast?_cons_getD]
        cases hL : (kruskalLog rest (uf.union e.2.1 e.2.2).1).getLast? with
        | none => rfl
        | some m => rfl
      · simp only [kruskalLoop, kruskalLog, if_pos hg, if_neg hu]
        exact ih (uf.union e.2.1 e.2.2).1 last
    · simp [kruskalLoop, kruskalLog, hg]

theorem kruskalLog_sublist : ∀ (es : List (Nat × Nat × Nat)) (uf : UnionFind),
    (kruskalLog es uf).Sublist es := by
  intro es
  induction es with
  | nil => intro uf; exact List.Sublist.refl []
  | cons e rest ih =>
    intro uf
    by_cases hg : 1 < uf.num_roots
    · by_cases hu : (uf.union e.2.1 e.2.2).2 = true
      · simp only [kruskalLog, if_pos hg, if_pos hu]
        exact List.Sublist.cons₂ e (ih (uf.union e.2.1 e.2.2).1)
      · simp only [kruskalLog, if_pos hg, if_neg hu]
        exact List.Sublist.cons e (ih (uf.union e.2.1 e.2.2).1)
    · simp only [kruskalLog, if_neg hg]
      exact List.nil_sublist _

theorem num_roots_pos {u : UnionFind} (h : u.WF) (hlen : 1 ≤ u.len) :
    1 ≤ u.num_roots := by
  rw [h.2.2.2.2.2]
  apply Finset.card_pos.mpr
  refine ⟨u.rootOf 0, ?_⟩
  rw [Finset.mem_filter, Finset.mem_range]
  exact ⟨(rootedAt_rootOf h hlen).2, rootOf_is_root h hlen⟩

theorem union_connects (u : UnionFind) (h : u.WF) (x y : Nat)
    (hx : x < u.len) (hy : y < u.len) :
    (u.union x y).1.rootOf x = (u.union x y).1.rootOf y := by
  obtain ⟨hlen, hwfU, hiff, hfalse, htrue⟩ := union_preserve u h x y hx hy
  cases hb : (u.union x y).2 with
  | false =>
    obtain ⟨_, _, hro, _, _⟩ := hfalse hb
    rw [hro x hx, hro y hy]
    exact hiff.mp hb
  | true =>
    obtain ⟨_, hchar, _, _, _, _⟩ := htrue hb
    rw [hchar x hx, hchar y hy, if_pos (Or.inl rfl), if_pos (Or.inr rfl)]

theorem union_preserves_conn (u : UnionFind) (h : u.WF) (x y a b : Nat)
    (hx : x < u.len) (hy : y < u.len) (ha : a < u.len) (hb : b < u.len)
    (hab : u.rootOf a = u.rootOf b) :
    (u.union x y).1.rootOf a = (u.union x y).1.rootOf b := by
  obtain ⟨hlen, hwfU, hiff, hfalse, htrue⟩ := union_preserve u h x y hx hy
  cases hres : (u.union x y).2 with
  | false =>
    obtain ⟨_, _, hro, _, _⟩ := hfalse hres
    rw [hro a ha, hro b hb, hab]
  | true =>
    obtain ⟨_, hchar, _, _, _, _⟩ := htrue hres
    rw [hchar a ha, hchar b hb, hab]

theorem kruskalLoop_wf : ∀ (es : List (Nat × Nat × Nat)) (uf : UnionFind)
    (last : Option (Nat × Nat)), uf.WF →
    (∀ e ∈ es, e.2.1 < uf.len ∧ e.2.2 < uf.len) →
    (kruskalLoop es uf last).1.WF ∧ (kruskalLoop es uf last).1.len = uf.len := by
  intro es
  induction es with
  | nil =>
    intro uf last h _
    exact ⟨h, rfl⟩
  | cons e rest ih =>
    intro uf last h hes
    by_cases hg : 1 < uf.num_roots
    · simp only [kruskalLoop, if_pos hg]
      have hebound := hes e (List.mem_cons_self e rest)
      obtain ⟨hlen, hwfU, _, _, _⟩ :=
        union_preserve uf h e.2.1 e.2.2 hebound.1 hebound.2
      have hrec := ih (uf.union e.2.1 e.2.2).1
        (if (uf.union e.2.1 e.2.2).2 = true then some (e.2.1, e.2.2) else last)
        hwfU
        (by
          intro e' he'
          rw [hlen]
          exact hes e' (List.mem_cons_of_mem e he'))
      exact ⟨hrec.1, hrec.2.trans hlen⟩
    · simp only [kruskalLoop, if_neg hg]
      exact ⟨h, trivial⟩

theorem kruskal_connects : ∀ (es : List (Nat × Nat × Nat)) (uf : UnionFind)
    (last : Option (Nat × Nat)), uf.WF →
    (∀ e ∈ es, e.2.1 < uf.len ∧ e.2.2 < uf.len) →
    (∀ a b, a < uf.len → b < uf.len → a ≠ b →
      uf.rootOf a = uf.rootOf b ∨
      ∃ e ∈ es, (e.2.1 = a ∧ e.2.2 = b) ∨ (e.2.1 = b ∧ e.2.2 = a)) →
    (kruskalLoop es uf last).1.num_roots ≤ 1 := by
  intro es
  induction es with
  | nil =>
    intro uf last h _ hpairs
    show uf.num_roots ≤ 1
    rw [h.2.2.2.2.2]
    by_cases hlen0 : uf.len = 0
    · rw [hlen0]
      simp
    · have hpos : 0 < uf.len := by omega
      have hconn0 : ∀ j, j < uf.len → uf.rootOf j = uf.rootOf 0 := by
        intro j hj
        by_cases hj0 : j = 0
        · rw [hj0]
        · rcases hpairs j 0 hj hpos hj0 with hc | hc
          · exact hc
          · obtain ⟨e, he, _⟩ := hc
            simp at he
      have hsub : (Finset.range uf.len).filter (fun i => uf.parent i = i)
          ⊆ {uf.rootOf 0} := by
        intro r hr
        rw [Finset.mem_filter, Finset.mem_range] at hr
        rw [Finset.mem_singleton]
        rw [← rootOf_root h hr.1 hr.2]
        exact hconn0 r hr.1
      calc ((Finset.range uf.len).filter (fun i => uf.parent i = i)).card
          ≤ ({uf.rootOf 0} : Finset Nat).card := Finset.card_le_card hsub
      _ = 1 := Finset.card_singleton _
  | cons e rest ih =>
    intro uf last h hes hpairs
    by_cases hg : 1 < uf.num_roots
    · simp only [kruskalLoop, if_pos hg]
      have hebound := hes e (List.mem_cons_self e rest)
      obtain ⟨hlen, hwfU, _, _, _⟩ :=
        union_preserve uf h e.2.1 e.2.2 hebound.1 hebound.2
      apply ih (uf.union e.2.1 e.2.2).1 _ hwfU
      · intro e' he'
        rw [hlen]
        exact hes e' (List.mem_cons_of_mem e he')
      · intro a b ha hb hab
        rw [hlen] at ha hb
        rcases hpairs a b ha hb hab with hc | hc
        · exact Or.inl (union_preserves_conn uf h e.2.1 e.2.2 a b
            hebound.1 hebound.2 ha hb hc)
        · obtain ⟨e', he', hcase⟩ := hc
          rcases List.mem_cons.mp he' with he' | he'
          · subst he'
            left
            have hconn := union_connects uf h e'.2.1 e'.2.2 hebound.1 hebound.2
            rcases hcase with ⟨h1, h2⟩ | ⟨h1, h2⟩
            · rw [← h1, ← h2]
              exact hconn
            · rw [← h1, ← h2]
              exact hconn.symm
          · exact Or.inr ⟨e', he', hcase⟩
    · simp only [kruskalLoop, if_neg hg]
      omega

theorem allPairs_bounds (ps : List Point3) :
    ∀ e ∈ allPairs ps, e.2.1 < ps.length ∧ e.2.2 < ps.length := by
  intro e he
  simp only [allPairs, List.mem_flatMap, List.mem_map, List.mem_range] at he
  obtain ⟨i, hi, j, hj, rfl⟩ := he
  show j < ps.length ∧ i < ps.length
  omega

theorem allPairs_complete (ps : List Point3) (a b : Nat)
    (ha : a < ps.length) (hb : b < ps.length) (hab : a ≠ b) :
    ∃ e ∈ allPairs ps, (e.2.1 = a ∧ e.2.2 = b) ∨ (e.2.1 = b ∧ e.2.2 = a) := by
  rcases Nat.lt_or_ge a b with hlt | hge
  · refine ⟨((pointAt ps b).dist_sq (pointAt ps a), a, b), ?_, Or.inl ⟨rfl, rfl⟩⟩
    simp only [allPairs, List.mem_flatMap, List.mem_map, List.mem_range]
    exact ⟨b, hb, a, hlt, rfl⟩
  · have hlt : b < a := by omega
    refine ⟨((pointAt ps a).dist_sq (pointAt ps b), b, a), ?_, Or.inr ⟨rfl, rfl⟩⟩
    simp only [allPairs, List.mem_flatMap, List.mem_map, List.mem_range]
    exact ⟨a, ha, b, hlt, rfl⟩

/-- C2: `last_connection` offers the pairwise edges to `union` in
non-decreasing squared-distance order and stops as soon as a single root
remains; the pair it reports is the edge of the last successful union,
which has the maximum weight among all edges actually unioned; an edge
whose endpoints already share a root is never counted as a union (`union`
returns `false` there, and indeed the number of logged unions always equals
the number of roots eliminated); for at least two points an answer is
produced and the loop ends with exactly one root, while an empty or
single-point input yields no answer (the source panics on its `expect`). -/
theorem last_connection_kruskal_spec (ps : List Point3) :
    (ps.length ≤ 1 → lastConnectionPair ps = none) ∧
    (sortedEdges ps).Pairwise (fun a b => a.1 ≤ b.1) ∧
    (∀ (uf : UnionFind) (last : Option (Nat × Nat)), uf.num_roots ≤ 1 →
      kruskalLoop (sortedEdges ps) uf last = (uf, last)) ∧
    ((kruskalLoop (sortedEdges ps) (UnionFind.new ps.length) none).1.num_roots
      + (kruskalLog (sortedEdges ps) (UnionFind.new ps.length)).length
      = ps.length) ∧
    (∀ m, (kruskalLog (sortedEdges ps) (UnionFind.new ps.length)).getLast? = some m →
      lastConnectionPair ps = some (m.2.1, m.2.2) ∧
      ∀ e ∈ kruskalLog (sortedEdges ps) (UnionFind.new ps.length), e.1 ≤ m.1) ∧
    (∀ (u : UnionFind), u.WF → ∀ x y, x < u.len → y < u.len →
      u.rootOf x = u.rootOf y → (u.union x y).2 = false) ∧
    (2 ≤ ps.length → (lastConnectionPair ps).isSome = true ∧
      (kruskalLoop (sortedEdges ps) (UnionFind.new ps.length) none).1.num_roots = 1) := by
  have hpairwise : (sortedEdges ps).Pairwise (fun a b => a.1 ≤ b.1) :=
    (List.sorted_insertionSort popLE (allPairs ps)).imp
      (fun hab => by unfold popLE at hab; omega)
  have hperm : List.Perm (sortedEdges ps) (allPairs ps) :=
    List.perm_insertionSort popLE (allPairs ps)
  have hbounds : ∀ e ∈ sortedEdges ps,
      e.2.1 < (UnionFind.new ps.length).len ∧ e.2.2 < (UnionFind.new ps.length).len := by
    intro e he
    exact allPairs_bounds ps e (hperm.mem_iff.mp he)
  refine ⟨?_, hpairwise, ?_, ?_, ?_, ?_, ?_⟩
  · intro hlen
    unfold lastConnectionPair
    rw [kruskal_stop _ _ _ (show (UnionFind.new ps.length).num_roots ≤ 1 from hlen)]
  · intro uf last h
    exact kruskal_stop _ uf last h
  · exact kruskal_count (sortedEdges ps) (UnionFind.new ps.length) none
  · intro m hm
    constructor
    · unfold lastConnectionPair
      rw [kruskal_last_log, hm]
      rfl
    · exact pairwise_getLast_max
        (List.Pairwise.sublist (kruskalLog_sublist _ _) hpairwise) hm
  · intro u hu x y hx hy heq
    exact ((union_preserve u hu x y hx hy).2.2.1).mpr heq
  · intro h2
    have hconn : (kruskalLoop (sortedEdges ps) (UnionFind.new ps.length) none).1.num_roots ≤ 1 :=
      kruskal_connects _ _ _ (new_wf ps.length) hbounds (by
        intro a b ha hb hab
        right
        obtain ⟨e, he, hc⟩ := allPairs_complete ps a b ha hb hab
        exact ⟨e, hperm.mem_iff.mpr he, hc⟩)
    obtain ⟨hwfF, hlenF⟩ :=
      kruskalLoop_wf (sortedEdges ps) (UnionFind.new ps.length) none
        (new_wf ps.length) hbounds
    have hpos : 1 ≤ (kruskalLoop (sortedEdges ps) (UnionFind.new ps.length) none).1.num_roots :=
      num_roots_pos hwfF (by rw [hlenF]; show 1 ≤ ps.length; omega)
    have hone : (kruskalLoop (sortedEdges ps) (UnionFind.new ps.length) none).1.num_roots = 1 := by
      omega
    have hcount := kruskal_count (sortedEdges ps) (UnionFind.new ps.length) none
    have hloglen : 1 ≤ (kruskalLog (sortedEdges ps) (UnionFind.new ps.length)).length := by
      have hnew : (UnionFind.new ps.length).num_roots = ps.length := rfl
      rw [hnew] at hcount
      omega
    refine ⟨?_, hone⟩
    cases hlog : kruskalLog (sortedEdges ps) (UnionFind.new ps.length) with
    | nil =>
      rw [hlog] at hloglen
      simp at hloglen
    | cons a t =>
      unfold lastConnectionPair
      rw [kruskal_last_log, hlog, getLast?_cons_getD]
      rfl

theorem last_connection_kruskal_spec_witness :
    lastConnectionPair [(⟨0, 0, 0⟩ : Point3)] = none ∧
    (lastConnectionPair [(⟨0, 0, 0⟩ : Point3), ⟨3, 0, 0⟩, ⟨4, 0, 0⟩]).isSome = true :=
  ⟨(last_connection_kruskal_spec [⟨0, 0, 0⟩]).1 (by decide),
   ((last_connection_kruskal_spec [⟨0, 0, 0⟩, ⟨3, 0, 0⟩, ⟨4, 0, 0⟩]).2.2.2.2.2.2
     (by decide)).1⟩

theorem foldl_mul_mod (l : List Nat) :
    ∀ a : Nat, l.foldl (fun acc s => acc * s % u64Mod) (a % u64Mod)
      = a * l.prod % u64Mod := by
  induction l with
  | nil =>
    intro a
    simp
  | cons s l ih =>
    intro a
    show l.foldl (fun acc s => acc * s % u64Mod) (a % u64Mod * s % u64Mod)
      = a * (s :: l).prod % u64Mod
    rw [Nat.mod_mul_mod, ih (a * s), List.prod_cons, Nat.mul_assoc]

theorem sort_asc_reverse_eq_sort_desc (l : List Nat) :
    (List.insertionSort (· ≤ ·) l).reverse
      = List.insertionSort (fun a b : Nat => b ≤ a) l := by
  haveI h1 : IsAntisymm Nat (fun a b : Nat => b ≤ a) :=
    ⟨fun a b ha hb => le_antisymm hb ha⟩
  haveI h2 : IsTotal Nat (fun a b : Nat => b ≤ a) :=
    ⟨fun a b => le_total b a⟩
  haveI h3 : IsTrans Nat (fun a b : Nat => b ≤ a) :=
    ⟨fun a b c ha hb => le_trans hb ha⟩
  apply List.eq_of_perm_of_sorted (r := fun a b : Nat => b ≤ a)
  · exact ((List.insertionSort (· ≤ ·) l).reverse_perm.trans
      (List.perm_insertionSort (· ≤ ·) l)).trans
      (List.perm_insertionSort (fun a b : Nat => b ≤ a) l).symm
  · exact List.pairwise_reverse.mpr (List.sorted_insertionSort (· ≤ ·) l)
  · exact List.sorted_insertionSort (fun a b : Nat => b ≤ a) l

/-- C4: for every point list and every `connections` below the number of
unordered pairs, `groups_after_connecting` unions the `connections`
smallest-weight pairs into a fresh disjoint set sized to the number of
points and returns the product of the three largest resulting component
sizes (`u64` arithmetic), the product of all component sizes when fewer
than three components exist; for the three points `(0,0,0)`, `(1,0,0)`,
`(0,1,0)` with one connection the result is `2`. -/
theorem groups_after_connecting_spec :
    (∀ (ps : List Point3) (k : Nat), k < (allPairs ps).length →
      groups_after_connecting ps k
        = some (topThreeProduct ((afterKUnions ps k).rootsList.map Prod.snd)
            % u64Mod)) ∧
    (∀ (ps : List Point3) (k : Nat), k < (allPairs ps).length →
      ((afterKUnions ps k).rootsList.map Prod.snd).length < 3 →
      groups_after_connecting ps k
        = some (((afterKUnions ps k).rootsList.map Prod.snd).prod % u64Mod)) ∧
    (∀ (ps : List Point3) (k : Nat), k < (allPairs ps).length →
      topThreeProduct ((afterKUnions ps k).rootsList.map Prod.snd) < u64Mod →
      groups_after_connecting ps k
        = some (topThreeProduct ((afterKUnions ps k).rootsList.map Prod.snd))) ∧
    groups_after_connecting [⟨0, 0, 0⟩, ⟨1, 0, 0⟩, ⟨0, 1, 0⟩] 1 = some 2 := by
  have main : ∀ (ps : List Point3) (k : Nat), k < (allPairs ps).length →
      groups_after_connecting ps k
        = some (topThreeProduct ((afterKUnions ps k).rootsList.map Prod.snd)
            % u64Mod) := by
    intro ps k hk
    unfold groups_after_connecting
    rw [if_pos hk]
    show some ((((List.insertionSort (· ≤ ·)
        ((afterKUnions ps k).rootsList.map Prod.snd)).reverse.take 3).foldl
        (fun acc s => acc * s % u64Mod) 1)) = _
    congr 1
    rw [sort_asc_reverse_eq_sort_desc]
    unfold topThreeProduct
    have hfold := foldl_mul_mod
      ((List.insertionSort (fun a b : Nat => b ≤ a)
        ((afterKUnions ps k).rootsList.map Prod.snd)).take 3) 1
    rw [Nat.mod_eq_of_lt (show 1 < u64Mod by unfold u64Mod; norm_num)] at hfold
    rw [hfold, Nat.one_mul]
  refine ⟨main, ?_, ?_, by decide⟩
  case refine_2 =>
    intro ps k hk hsmall
    rw [main ps k hk, Nat.mod_eq_of_lt hsmall]
  intro ps k hk hlen3
  rw [main ps k hk]
  congr 2
  unfold topThreeProduct
  have hperm := List.perm_insertionSort (fun a b : Nat => b ≤ a)
    ((afterKUnions ps k).rootsList.map Prod.snd)
  have hlen : (List.insertionSort (fun a b : Nat => b ≤ a)
      ((afterKUnions ps k).rootsList.map Prod.snd)).length ≤ 3 := by
    rw [hperm.length_eq]
    omega
  rw [List.take_of_length_le hlen]
  exact hperm.prod_eq

theorem groups_after_connecting_spec_witness :
    groups_after_connecting [(⟨0, 0, 0⟩ : Point3), ⟨1, 0, 0⟩, ⟨0, 1, 0⟩] 1
      = some (topThreeProduct
          ((afterKUnions [(⟨0, 0, 0⟩ : Point3), ⟨1, 0, 0⟩, ⟨0, 1, 0⟩] 1).rootsList.map
            Prod.snd) % u64Mod) :=
  groups_after_connecting_spec.1 [⟨0, 0, 0⟩, ⟨1, 0, 0⟩, ⟨0, 1, 0⟩] 1 (by decide)

/-- Model of `struct Pos { row: usize, col: usize }` from `src/shared.rs`. -/
structure Pos where
  row : Nat
  col : Nat
deriving DecidableEq

/-- Model of `struct Grid<T> { data: Vec<T>, width: usize, height: usize }`
from `src/shared.rs`; `Grid::new` asserts `data.len() == width * height`. -/
structure Grid (T : Type) where
  data : List T
  width : Nat
  height : Nat

/-- `Grid::get_index` verbatim, including the `||` joining the two
per-axis bounds checks. -/
def Grid.get_index {T : Type} (g : Grid T) (pos : Pos) : Option Nat :=
  if pos.row < g.height ∨ pos.col < g.width then
    some (pos.row * g.width + pos.col)
  else none

/-- `Index<Pos> for Grid`: `expect("index out of range")` on `get_index`,
then `Vec` indexing; `none` models either panic. -/
def Grid.getP {T : Type} (g : Grid T) (pos : Pos) : Option T :=
  (g.get_index pos).bind (fun i => g.data[i]?)

/-- C10: when exactly one of `row < height` and `col < width` holds,
`Grid::get_index` returns `Some(row * width + col)` rather than `None`
because the bounds check joins the axes with `||`; indexing such a position
does not raise the `index out of range` panic whenever the flat index is
below `width * height`, and then silently yields the element stored for a
different, in-range cell. -/
theorem grid_get_index_or_bug {T : Type} (g : Grid T) (pos : Pos)
    (hdata : g.data.length = g.width * g.height)
    (hxor : (pos.row < g.height ∧ ¬pos.col < g.width) ∨
      (¬pos.row < g.height ∧ pos.col < g.width)) :
    g.get_index pos = some (pos.row * g.width + pos.col) ∧
    (pos.row * g.width + pos.col < g.width * g.height →
      ∃ r c, r < g.height ∧ c < g.width ∧ (Pos.mk r c) ≠ pos ∧
        (g.getP pos).isSome = true ∧ g.getP pos = g.getP ⟨r, c⟩) := by
  have hcond : pos.row < g.height ∨ pos.col < g.width := by
    rcases hxor with ⟨h1, _⟩ | ⟨_, h2⟩
    · exact Or.inl h1
    · exact Or.inr h2
  have hidx : g.get_index pos = some (pos.row * g.width + pos.col) := by
    unfold Grid.get_index
    rw [if_pos hcond]
  refine ⟨hidx, ?_⟩
  intro hlt
  have hw : 0 < g.width := by
    by_contra hw0
    have hz : g.width = 0 := by omega
    rw [hz] at hlt
    simp at hlt
  have hclt : (pos.row * g.width + pos.col) % g.width < g.width :=
    Nat.mod_lt _ hw
  have hrlt : (pos.row * g.width + pos.col) / g.width < g.height := by
    rw [Nat.div_lt_iff_lt_mul hw, Nat.mul_comm g.height g.width]
    exact hlt
  have hdecode : (pos.row * g.width + pos.col) / g.width * g.width
      + (pos.row * g.width + pos.col) % g.width = pos.row * g.width + pos.col := by
    rw [Nat.mul_comm]
    exact Nat.div_add_mod _ _
  refine ⟨(pos.row * g.width + pos.col) / g.width,
    (pos.row * g.width + pos.col) % g.width, hrlt, hclt, ?_, ?_, ?_⟩
  · intro he
    have hr : (pos.row * g.width + pos.col) / g.width = pos.row :=
      congrArg Pos.row he
    have hc : (pos.row * g.width + pos.col) % g.width = pos.col :=
      congrArg Pos.col he
    rcases hxor with ⟨h1, h2⟩ | ⟨h1, h2⟩
    · omega
    · omega
  · unfold Grid.getP
    rw [hidx]
    have hlt2 : pos.row * g.width + pos.col < g.data.length := by omega
    simp [List.getElem?_eq_getElem hlt2]
  · unfold Grid.getP
    rw [hidx]
    have hidx2 : g.get_index ⟨(pos.row * g.width + pos.col) / g.width,
        (pos.row * g.width + pos.col) % g.width⟩
        = some (pos.row * g.width + pos.col) := by
      unfold Grid.get_index
      rw [if_pos (Or.inl hrlt)]
      show some (_ / g.width * g.width + _ % g.width) = _
      rw [hdecode]
    rw [hidx2]

theorem grid_get_index_or_bug_witness :
    (Grid.mk [10, 20, 30, 40] 2 2).get_index ⟨0, 2⟩
      = some ((0 : Nat) * 2 + 2) ∧
    ((0 : Nat) * 2 + 2 < 2 * 2 →
      ∃ r c, r < 2 ∧ c < 2 ∧ (Pos.mk r c) ≠ ⟨0, 2⟩ ∧
        ((Grid.mk [10, 20, 30, 40] 2 2).getP ⟨0, 2⟩).isSome = true ∧
        (Grid.mk [10, 20, 30, 40] 2 2).getP ⟨0, 2⟩
          = (Grid.mk [10, 20, 30, 40] 2 2).getP ⟨r, c⟩) :=
  grid_get_index_or_bug (Grid.mk [10, 20, 30, 40] 2 2) ⟨0, 2⟩ (by decide)
    (Or.inl (by decide))

/-- Model of `struct Point { x: u32, y: u32 }` from `src/day_09.rs`. -/
structure Point2 where
  x : Nat
  y : Nat
deriving DecidableEq

/-- `Point::area`: `(x.abs_diff + 1) * (y.abs_diff + 1)` as `u64`. -/
def Point2.area (p q : Point2) : Nat :=
  ((max p.x q.x - min p.x q.x + 1) * (max p.y q.y - min p.y q.y + 1)) % u64Mod

/-- The sorted axis table of `part_2`: a `BTreeSet` seeded with `0` and
with `v` and `v + 1` for every vertex coordinate `v`, then iterated in
ascending order (sorted and duplicate-free). -/
def axisTable (vals : List Nat) : List Nat :=
  List.insertionSort (· ≤ ·) (0 :: vals.flatMap (fun v => [v, v + 1])).dedup

/-- `partition_point(|&x| x < v)` on a sorted deduplicated vector: the
number of elements below `v`. -/
def axisIdx (xs : List Nat) (v : Nat) : Nat :=
  xs.countP (fun x => decide (x < v))

/-- `IndexMut<Pos> for Grid` (writes go through the same `get_index`);
every write of the day-9 pipeline is in range, so the panic case cannot be
reached there and is modelled as leaving the grid unchanged. -/
def Grid.setP {T : Type} (g : Grid T) (pos : Pos) (v : T) : Grid T :=
  match g.get_index pos with
  | some i => { g with data := g.data.set i v }
  | none => g

/-- One iteration of the outline loop of `part_2`: draw the compressed
cells of the segment from `p1` to `p2` when it is vertical or horizontal;
any other segment falls through both `if`s and is silently skipped. -/
def drawEdge (xs ys : List Nat) (g : Grid Nat) (pq : Point2 × Point2) : Grid Nat :=
  if pq.1.x = pq.2.x then
    let xi := axisIdx xs pq.1.x
    let yi1 := axisIdx ys pq.1.y
    let yi2 := axisIdx ys pq.2.y
    (List.range (max yi1 yi2 + 1 - min yi1 yi2)).foldl
      (fun gg k => gg.setP ⟨min yi1 yi2 + k, xi⟩ 1) g
  else if pq.1.y = pq.2.y then
    let yi := axisIdx ys pq.1.y
    let xi1 := axisIdx xs pq.1.x
    let xi2 := axisIdx xs pq.2.x
    (List.range (max xi1 xi2 + 1 - min xi1 xi2)).foldl
      (fun gg k => gg.setP ⟨yi, min xi1 xi2 + k⟩ 1) g
  else g

/-- The outline pass: consecutive vertices cyclically
(`zip(points.iter().cycle().skip(1))`). -/
def drawOutline (xs ys : List Nat) (points : List Point2) (g : Grid Nat) : Grid Nat :=
  (points.zip (points.rotate 1)).foldl (drawEdge xs ys) g

/-- Row-major scan order `(yi, xi)` of the nested flood loops. -/
def cellList (w h : Nat) : List (Nat × Nat) :=
  (List.range h).flatMap (fun yi => (List.range w).map (fun xi => (yi, xi)))

/-- One cell of the flood pass: union with the upper neighbor when the
values agree, then the left neighbor, then with element `0` when the cell
is a zero-valued border cell. -/
def floodStep (g : Grid Nat) (uf : UnionFind) (c : Nat × Nat) : UnionFind :=
  let yi := c.1
  let xi := c.2
  let ix := yi * g.width + xi
  let v := (g.getP ⟨yi, xi⟩).getD 0
  let uf1 := if 0 < yi ∧ (g.getP ⟨yi - 1, xi⟩).getD 0 = v then
    (uf.union ((yi - 1) * g.width + xi) ix).1 else uf
  let uf2 := if 0 < xi ∧ (g.getP ⟨yi, xi - 1⟩).getD 0 = v then
    (uf1.union (yi * g.width + xi - 1) ix).1 else uf1
  if v = 0 ∧ (xi = 0 ∨ xi = g.width - 1 ∨ yi = 0 ∨ yi = g.height - 1) then
    (uf2.union 0 ix).1 else uf2

/-- The flood pass of `part_2`: the nested cell loop followed by the three
unconditional corner unions. -/
def floodUF (g : Grid Nat) : UnionFind :=
  let uf := (cellList g.width g.height).foldl (floodStep g)
    (UnionFind.new (g.width * g.height))
  let uf1 := (uf.union 0 (g.width - 1)).1
  let uf2 := (uf1.union 0 ((g.height - 1) * g.width)).1
  ((uf2.union 0 (g.height * g.width - 1)).1)

/-- The structure after `uf.find(0)` of the classification stage of
`part_2` (the `find` mutates the structure the later scans run on). -/
def classifyUF (uf : UnionFind) : UnionFind :=
  (uf.find 0).1

/-- `outside_root`: the value returned by `uf.find(0)`. -/
def outsideRootOf (uf : UnionFind) : Nat :=
  (uf.find 0).2

/-- `edge_root`: the first root (in index order) lying on a value-1 cell;
`none` models the panic of the `unwrap`. -/
def edgeRootOf (g : Grid Nat) (uf : UnionFind) : Option Nat :=
  ((classifyUF uf).rootsList.map Prod.fst).find?
    (fun r => decide ((g.getP ⟨r / g.width, r % g.width⟩).getD 0 = 1))

/-- `inside_root`: the first root differing from both `outside_root` and
`edge_root`; `none` models either panic. -/
def insideRootOf (g : Grid Nat) (uf : UnionFind) : Option Nat :=
  match edgeRootOf g uf with
  | some er => ((classifyUF uf).rootsList.map Prod.fst).find?
      (fun r => decide (r ≠ outsideRootOf uf) && decide (r ≠ er))
  | none => none

/-- One cell of the promotion pass: `if uf.find(index) == inside_root`
set the cell to 1 (the `find` mutates the structure either way). -/
def promoteStep (ir : Nat) (acc : Grid Nat × UnionFind) (c : Nat × Nat) :
    Grid Nat × UnionFind :=
  let ix := c.1 * acc.1.width + c.2
  let f := acc.2.find ix
  if f.2 = ir then (acc.1.setP ⟨c.1, c.2⟩ 1, f.1) else (acc.1, f.1)

/-- The promotion pass of `part_2`. -/
def promote (g : Grid Nat) (uf : UnionFind) (ir : Nat) : Grid Nat × UnionFind :=
  (cellList g.width g.height).foldl (promoteStep ir) (g, uf)

/-- The `(v, next v)` spans of an axis table, the last element paired with
itself (`zip(tail.chain([last]))`). -/
def spanPairs (vs : List Nat) : List (Nat × Nat) :=
  vs.zip (vs.drop 1 ++ [vs.getLastD 0])

/-- One cell of the in-place prefix-sum pass: the cell value becomes
`mask * rowspan * colspan + left + above - aboveleft` (terms omitted on
the first row/column); the `try_into().expect("positive")` is modelled by
`none` on a negative sum. -/
def prefixStep (xs ys : List Nat) (acc : Option (Grid Nat)) (c : Nat × Nat) :
    Option (Grid Nat) :=
  match acc with
  | none => none
  | some g =>
    let yi := c.1
    let xi := c.2
    let yspan := (spanPairs ys).getD yi (0, 0)
    let xspan := (spanPairs xs).getD xi (0, 0)
    let base : Int := (if 0 < (g.getP ⟨yi, xi⟩).getD 0 then 1 else 0)
      * ((yspan.2 - yspan.1 : Nat) : Int) * ((xspan.2 - xspan.1 : Nat) : Int)
    let sum : Int :=
      if 0 < xi then
        if 0 < yi then
          base + ((g.getP ⟨yi, xi - 1⟩).getD 0 : Int)
            + ((g.getP ⟨yi - 1, xi⟩).getD 0 : Int)
            - ((g.getP ⟨yi - 1, xi - 1⟩).getD 0 : Int)
        else base + ((g.getP ⟨yi, xi - 1⟩).getD 0 : Int)
      else if 0 < yi then base + ((g.getP ⟨yi - 1, xi⟩).getD 0 : Int)
      else base
    if 0 ≤ sum then some (g.setP ⟨yi, xi⟩ sum.toNat) else none

/-- The prefix-sum pass of `part_2` over the same row-major scan. -/
def prefixGrid (xs ys : List Nat) (g : Grid Nat) : Option (Grid Nat) :=
  (cellList g.width g.height).foldl (prefixStep xs ys) (some g)

/-- The rectangle sum of the query loop, verbatim from the source:
`grid_sum = P[yi2][xi2]`, then under `if xi1 > 0` and the inner guard
`if yi2 > 0` it adds `P[yi1-1][xi1-1]` and subtracts `P[yi1-1][xi2]` — on
`yi1 = 0` that `usize` subtraction underflows and panics (`none`); then it
subtracts `P[yi2][xi1-1]`; the `else if yi1 > 0` branch subtracts
`P[yi1-1][xi2]`. The `u64` sums are carried in `Int` (no intermediate of a
valid prefix table is negative). -/
def rectSum (g : Grid Nat) (xi1 xi2 yi1 yi2 : Nat) : Option Int :=
  let pv := fun (r c : Nat) => ((g.getP ⟨r, c⟩).getD 0 : Int)
  if 0 < xi1 then
    if 0 < yi2 then
      if yi1 = 0 then none
      else some (pv yi2 xi2 + pv (yi1 - 1) (xi1 - 1) - pv (yi1 - 1) xi2
        - pv yi2 (xi1 - 1))
    else some (pv yi2 xi2 - pv yi2 (xi1 - 1))
  else if 0 < yi1 then some (pv yi2 xi2 - pv (yi1 - 1) xi2)
  else some (pv yi2 xi2)

/-- The standard inclusion-exclusion rectangle sum as the claim words it:
every subtraction (and the double-counted addition) is omitted exactly
when the corresponding compressed index is `0`. -/
def specRectSum (g : Grid Nat) (xi1 xi2 yi1 yi2 : Nat) : Int :=
  let pv := fun (r c : Nat) => ((g.getP ⟨r, c⟩).getD 0 : Int)
  pv yi2 xi2
    - (if 0 < yi1 then pv (yi1 - 1) xi2 else 0)
    - (if 0 < xi1 then pv yi2 (xi1 - 1) else 0)
    + (if 0 < yi1 ∧ 0 < xi1 then pv (yi1 - 1) (xi1 - 1) else 0)

/-- The all-corner-pairs query loop of `part_2`, accumulating the maximal
fully-interior area; `none` models a panic inside the loop. -/
def queryLoop (xs ys : List Nat) (g : Grid Nat) (ps : List Point2) : Option Nat :=
  ((List.range ps.length).flatMap (fun i =>
    (ps.drop (i + 1)).map (fun p2 => (ps.getD i ⟨0, 0⟩, p2)))).foldl
    (fun acc pq =>
      match acc with
      | none => none
      | some m =>
        let xi1 := axisIdx xs pq.1.x
        let yi1 := axisIdx ys pq.1.y
        let xi2 := axisIdx xs pq.2.x
        let yi2 := axisIdx ys pq.2.y
        let expected : Nat := pq.1.area pq.2
        match rectSum g (min xi1 xi2) (max xi1 xi2) (min yi1 yi2) (max yi1 yi2) with
        | none => none
        | some s => if s = (expected : Int) then some (max m expected) else some m)
    (some 0)

/-- The outline grid of `part_2` for a vertex list. -/
def day9Grid (points : List Point2) : Grid Nat :=
  let xs := axisTable (points.map Point2.x)
  let ys := axisTable (points.map Point2.y)
  drawOutline xs ys points
    ⟨List.replicate (xs.length * ys.length) 0, xs.length, ys.length⟩

/-- The mutated structure of the flood-classification stage of `part_2`. -/
def day9UF (points : List Point2) : UnionFind :=
  classifyUF (floodUF (day9Grid points))

/-- The `outside_root` of the pipeline. -/
def day9Outside (points : List Point2) : Nat :=
  outsideRootOf (floodUF (day9Grid points))

/-- The `edge_root` of the pipeline. -/
def day9Edge (points : List Point2) : Option Nat :=
  edgeRootOf (day9Grid points) (floodUF (day9Grid points))

/-- The `inside_root` of the pipeline. -/
def day9Inside (points : List Point2) : Option Nat :=
  insideRootOf (day9Grid points) (floodUF (day9Grid points))

/-- The pipeline of `part_2` through the prefix-sum table (`none` when one
of the two root scans fails or a prefix cell would be negative). -/
def day9PrefixGrid (points : List Point2) : Option (Grid Nat) :=
  match day9Edge points, day9Inside points with
  | some _, some ir =>
    prefixGrid (axisTable (points.map Point2.x)) (axisTable (points.map Point2.y))
      (promote (day9Grid points) (day9UF points) ir).1
  | _, _ => none

/-- `part_2` from `src/day_09.rs`; `none` models any panic on the way. -/
def part_2 (points : List Point2) : Option Nat :=
  match day9PrefixGrid points with
  | some g3 =>
    queryLoop (axisTable (points.map Point2.x)) (axisTable (points.map Point2.y))
      g3 points
  | none => none

/-- The number of qualifying components in the sense of claim C1: flood
components that are neither the outside sentinel root's component nor the
component of any boundary (value-1) cell. -/
def specQualifyingCount (points : List Point2) : Nat :=
  let g := day9Grid points
  ((day9UF points).rootsList.map Prod.fst).filter (fun r =>
    decide (r ≠ day9Outside points) &&
    ((List.range (g.width * g.height)).all (fun c =>
      !(decide ((g.getP ⟨c / g.width, c % g.width⟩).getD 0 = 1) &&
        decide ((day9UF points).rootOf c = r))))) |>.length

theorem rootsList_map_fst (u : UnionFind) :
    u.rootsList.map Prod.fst
      = (List.range u.len).filter (fun i => decide (u.parent i = i)) := by
  rw [rootsList_eq, List.map_map]
  have hcomp : (Prod.fst ∘ fun r : Nat => (r, u.size r)) = id := rfl
  rw [hcomp, List.map_id]

theorem sorted_find?_min : ∀ {l : List Nat} {p : Nat → Bool} {a : Nat},
    l.Pairwise (· < ·) → l.find? p = some a → ∀ b ∈ l, p b = true → a ≤ b := by
  intro l
  induction l with
  | nil =>
    intro p a _ hf
    simp at hf
  | cons c l ih =>
    intro p a hs hf b hb hpb
    rw [List.pairwise_cons] at hs
    by_cases hc : p c = true
    · rw [List.find?_cons_of_pos _ hc] at hf
      have ha : a = c := by
        cases hf
        rfl
      subst ha
      rcases List.mem_cons.mp hb with hb | hb
      · rw [hb]
      · exact le_of_lt (hs.1 b hb)
    · rw [List.find?_cons_of_neg _ (by simpa using hc)] at hf
      rcases List.mem_cons.mp hb with hb | hb
      · rw [hb] at hpb
        exact absurd hpb hc
      · exact ih hs.2 hf b hb hpb

set_option maxRecDepth 1000000 in
set_option maxHeartbeats 16000000 in
/-- C1 counterexample: the self-overlapping rectilinear loop
`(1,1) (3,1) (3,3) (3,1) (5,1) (5,3) (1,3)` (an outer rectangle with a
doubled-back middle wall) encloses two disjoint interior regions — the
flood classification yields two components that are neither the outside
component nor a boundary cell's component — yet `part_2` reports no error
of any kind and silently returns the answer `9` computed from the one
region it happened to promote. -/
theorem part2_silent_on_two_regions :
    specQualifyingCount [⟨1, 1⟩, ⟨3, 1⟩, ⟨3, 3⟩, ⟨3, 1⟩, ⟨5, 1⟩, ⟨5, 3⟩, ⟨1, 3⟩] = 2 ∧
    part_2 [⟨1, 1⟩, ⟨3, 1⟩, ⟨3, 3⟩, ⟨3, 1⟩, ⟨5, 1⟩, ⟨5, 3⟩, ⟨1, 3⟩] = some 9 := by
  constructor
  · decide
  · decide

theorem insideRootOf_eq (g : Grid Nat) (uf : UnionFind) :
    insideRootOf g uf
      = match edgeRootOf g uf with
        | some er => ((classifyUF uf).rootsList.map Prod.fst).find?
            (fun r => decide (r ≠ outsideRootOf uf) && decide (r ≠ er))
        | none => none := rfl

/-- C1 amended: the pipeline never counts the qualifying components and
has no error channel: whenever the roots scans succeed, the promoted
inside root is exactly the lowest-index root that differs from the outside
root and from the first boundary root — even when several such components
exist — and `part_2` proceeds silently with it. -/
theorem inside_root_first_qualifying (points : List Point2) (er ir : Nat)
    (he : day9Edge points = some er)
    (hi : day9Inside points = some ir) :
    ir ≠ day9Outside points ∧ ir ≠ er ∧
    ir ∈ (day9UF points).rootsList.map Prod.fst ∧
    ∀ r ∈ (day9UF points).rootsList.map Prod.fst,
      r ≠ day9Outside points → r ≠ er → ir ≤ r := by
  have he' : edgeRootOf (day9Grid points) (floodUF (day9Grid points)) = some er := he
  have h0 : day9Inside points
      = insideRootOf (day9Grid points) (floodUF (day9Grid points)) := rfl
  rw [insideRootOf_eq, he'] at h0
  rw [h0] at hi
  replace hi : ((day9UF points).rootsList.map Prod.fst).find?
      (fun r => decide (r ≠ day9Outside points) && decide (r ≠ er)) = some ir := hi
  have hpred := List.find?_some hi
  rw [Bool.and_eq_true, decide_eq_true_eq, decide_eq_true_eq] at hpred
  have hmem := List.mem_of_find?_eq_some hi
  have hsorted : ((day9UF points).rootsList.map Prod.fst).Pairwise (· < ·) := by
    rw [rootsList_map_fst]
    exact List.Pairwise.filter _ (List.pairwise_lt_range _)
  refine ⟨hpred.1, hpred.2, hmem, ?_⟩
  intro r hr h1 h2
  exact sorted_find?_min hsorted hi r hr (by
    rw [Bool.and_eq_true, decide_eq_true_eq, decide_eq_true_eq]
    exact ⟨h1, h2⟩)

set_option maxRecDepth 1000000 in
set_option maxHeartbeats 16000000 in
theorem inside_root_first_qualifying_witness :
    12 ≠ day9Outside [⟨1, 1⟩, ⟨3, 1⟩, ⟨3, 3⟩, ⟨1, 3⟩] ∧ 12 ≠ 6 ∧
    12 ∈ (day9UF [⟨1, 1⟩, ⟨3, 1⟩, ⟨3, 3⟩, ⟨1, 3⟩]).rootsList.map Prod.fst ∧
    ∀ r ∈ (day9UF [⟨1, 1⟩, ⟨3, 1⟩, ⟨3, 3⟩, ⟨1, 3⟩]).rootsList.map Prod.fst,
      r ≠ day9Outside [⟨1, 1⟩, ⟨3, 1⟩, ⟨3, 3⟩, ⟨1, 3⟩] → r ≠ 6 → 12 ≤ r :=
  inside_root_first_qualifying [⟨1, 1⟩, ⟨3, 1⟩, ⟨3, 3⟩, ⟨1, 3⟩] 6 12
    (by decide) (by decide)

set_option maxRecDepth 1000000 in
set_option maxHeartbeats 16000000 in
/-- C3: at the polygon `(1,0) (3,0) (3,2) (1,2)` and the corner pair
`p1 = (1,0)`, `p2 = (3,2)` the compressed indices are `xi1 = 1`, `xi2 = 3`,
`yi1 = 0`, `yi2 = 2`; the source guards the first-row terms with
`yi2 > 0` while subtracting at row `yi1 - 1`, so the `usize` subtraction
underflows and `part_2` panics (`none`), whereas the claim's formula —
omitting a term exactly when its compressed index is `0` — yields `9`,
exactly the expected geometric area of that fully interior rectangle. -/
theorem rect_query_underflow_eval :
    part_2 [⟨1, 0⟩, ⟨3, 0⟩, ⟨3, 2⟩, ⟨1, 2⟩] = none ∧
    (day9PrefixGrid [⟨1, 0⟩, ⟨3, 0⟩, ⟨3, 2⟩, ⟨1, 2⟩]).map
      (fun g => rectSum g 1 3 0 2) = some none ∧
    (day9PrefixGrid [⟨1, 0⟩, ⟨3, 0⟩, ⟨3, 2⟩, ⟨1, 2⟩]).map
      (fun g => specRectSum g 1 3 0 2) = some 9 ∧
    Point2.area ⟨1, 0⟩ ⟨3, 2⟩ = 9 ∧
    axisIdx (axisTable ([⟨1, 0⟩, ⟨3, 0⟩, ⟨3, 2⟩, (⟨1, 2⟩ : Point2)].map Point2.x)) 1 = 1 ∧
    axisIdx (axisTable ([⟨1, 0⟩, ⟨3, 0⟩, ⟨3, 2⟩, (⟨1, 2⟩ : Point2)].map Point2.x)) 3 = 3 ∧
    axisIdx (axisTable ([⟨1, 0⟩, ⟨3, 0⟩, ⟨3, 2⟩, (⟨1, 2⟩ : Point2)].map Point2.y)) 0 = 0 ∧
    axisIdx (axisTable ([⟨1, 0⟩, ⟨3, 0⟩, ⟨3, 2⟩, (⟨1, 2⟩ : Point2)].map Point2.y)) 2 = 2 := by
  refine ⟨by decide, by decide, by decide, by decide, by decide, by decide, by decide, by decide⟩
